import Mathlib

/-!
# Peak extraction of the `noa_hello` audio filter

A shallow embedding of `modules/audio_filter/noa_hello.c`: the four per-format
peak routines `GetPeaksFL32`, `GetPeaksFL64`, `GetPeaksS16N`, `GetPeaksS32N`,
and the filter glue `Open` / `Process` that selects and calls them.

Modelling conventions.

* A `float` or `double` value is a `FloatVal`: either NaN or an extended
  rational (a finite value, `+inf` or `-inf`).  The sign of zero and the NaN
  payload are not represented; neither can be observed through the
  comparisons `<` and `>` that the routines perform.
* Conversions to `float` (`(float)x` of a `double` or of an integer, and the
  division by the `float` constants `0x1.p15f`, `0x1.p31f`) round to the
  nearest binary32 value, ties to even (the IEEE-754 default mode).
* `p_block->p_buffer` is the sequence of raw sample words, one entry per
  interleaved sample; each routine decodes an entry according to the C type
  it reads the buffer through.  Reading past the end of the buffer is the
  fault `outOfBounds`.
* `float *f_min`, `float *f_max` and the local accumulator arrays are maps
  from index to value: a C pointer carries no extent.
* `assert` is active: a failed assertion is the fault `assertion`.
* `int i_channels` is a natural number: a negative count runs no loop
  iteration, exactly like `0`.
* A user callback is external code; a call is recorded with its arguments.
* `INPUT_CHAN_MAX` and the `VLC_CODEC_*` tags come from headers of the host
  framework and are parameters.
-/

namespace NoaHello

/-! ## Floating-point values -/

/-- Extended rationals: `⊥` is `-inf`, `⊤` is `+inf`. -/
abbrev XRat := WithBot (WithTop ℚ)

/-- The finite extended rational `q`. -/
def finite (q : ℚ) : XRat := ((q : WithTop ℚ) : WithBot (WithTop ℚ))

/-- A C floating-point value up to what `<` can observe. -/
inductive FloatVal where
  | nan : FloatVal
  | num (x : XRat) : FloatVal
deriving DecidableEq

/-- IEEE-754 `a < b`: false as soon as one operand is NaN. -/
def FloatVal.lt : FloatVal → FloatVal → Prop
  | .num a, .num b => a < b
  | _, _ => False

instance : LT FloatVal := ⟨FloatVal.lt⟩

instance FloatVal.decLt (a b : FloatVal) : Decidable (a < b) :=
  match a, b with
  | .num x, .num y => inferInstanceAs (Decidable (x < y))
  | .nan, _ => isFalse (fun h => h)
  | .num _, .nan => isFalse (fun h => h)

/-- IEEE-754 `a <= b`: false as soon as one operand is NaN. -/
def FloatVal.le : FloatVal → FloatVal → Prop
  | .num a, .num b => a ≤ b
  | _, _ => False

instance : LE FloatVal := ⟨FloatVal.le⟩

instance FloatVal.decLe (a b : FloatVal) : Decidable (a ≤ b) :=
  match a, b with
  | .num x, .num y => inferInstanceAs (Decidable (x ≤ y))
  | .nan, _ => isFalse (fun h => h)
  | .num _, .nan => isFalse (fun h => h)

instance : OfNat FloatVal 0 := ⟨.num 0⟩

/-- Round to the nearest integer, ties to the even one. -/
def rne (x : ℚ) : ℤ :=
  if x - ⌊x⌋ < 1 / 2 then ⌊x⌋
  else if 1 / 2 < x - ⌊x⌋ then ⌊x⌋ + 1
  else if ⌊x⌋ % 2 = 0 then ⌊x⌋ else ⌊x⌋ + 1

/-- Exponent of the unit in the last place of binary32 at magnitude `q`:
24 significant bits, smallest normal binade `2^-126`. -/
def f32Expo (q : ℚ) : ℤ := max (Int.log 2 |q|) (-126) - 23

/-- Nearest binary32 value of a rational, exponent range unbounded above. -/
def f32RoundQ (q : ℚ) : ℚ := (rne (q / 2 ^ f32Expo q) : ℚ) * 2 ^ f32Expo q

/-- Nearest binary32 value of an extended rational; a magnitude that rounds
to `2^128` or more overflows to an infinity. -/
def roundF32 : XRat → XRat
  | none => ⊥ -- `-inf` stays `-inf`
  | some none => ⊤ -- `+inf` stays `+inf`
  | some (some q) =>
    if (2 : ℚ) ^ 128 ≤ f32RoundQ q then ⊤
    else if f32RoundQ q ≤ -(2 : ℚ) ^ 128 then ⊥
    else finite (f32RoundQ q)

/-- The conversion `(float)x` of a `double`. -/
def doubleToFloat : FloatVal → FloatVal
  | .nan => .nan
  | .num x => .num (roundF32 x)

/-- The conversion `(float)n` of an integer. -/
def intToFloat (n : ℤ) : FloatVal := .num (roundF32 (finite n))

/-- The `float` division `a / 0x1.pKf` by the constant `2^k`. -/
def divPow2 (a : FloatVal) (k : ℕ) : FloatVal :=
  match a with
  | .nan => .nan
  | .num none => .num ⊥ -- `-inf / 2^k`
  | .num (some none) => .num ⊤ -- `+inf / 2^k`
  | .num (some (some q)) => .num (roundF32 (finite (q / 2 ^ k)))

/-! ## Decoding raw sample words -/

/-- The `float` whose binary32 bit pattern is `w` (taken modulo `2^32`). -/
def decodeF32 (w : ℕ) : FloatVal :=
  let b : ℕ := w % 2 ^ 32
  let e : ℕ := b / 2 ^ 23 % 2 ^ 8
  let m : ℕ := b % 2 ^ 23
  let sign : ℚ := if b / 2 ^ 31 = 1 then -1 else 1
  if e = 255 then
    if m = 0 then (if b / 2 ^ 31 = 1 then .num ⊥ else .num ⊤) else .nan
  else if e = 0 then .num (finite (sign * (m : ℚ) * 2 ^ (-149 : ℤ)))
  else .num (finite (sign * (2 ^ 23 + (m : ℚ)) * 2 ^ ((e : ℤ) - 150)))

/-- The `double` whose binary64 bit pattern is `w` (taken modulo `2^64`). -/
def decodeF64 (w : ℕ) : FloatVal :=
  let b : ℕ := w % 2 ^ 64
  let e : ℕ := b / 2 ^ 52 % 2 ^ 11
  let m : ℕ := b % 2 ^ 52
  let sign : ℚ := if b / 2 ^ 63 = 1 then -1 else 1
  if e = 2047 then
    if m = 0 then (if b / 2 ^ 63 = 1 then .num ⊥ else .num ⊤) else .nan
  else if e = 0 then .num (finite (sign * (m : ℚ) * 2 ^ (-1074 : ℤ)))
  else .num (finite (sign * (2 ^ 52 + (m : ℚ)) * 2 ^ ((e : ℤ) - 1075)))

/-- The `int16_t` whose two's-complement bit pattern is `w` modulo `2^16`. -/
def toInt16 (w : ℕ) : ℤ :=
  if w % 2 ^ 16 < 2 ^ 15 then (w % 2 ^ 16 : ℕ) else ((w % 2 ^ 16 : ℕ) : ℤ) - 2 ^ 16

/-- The `int32_t` whose two's-complement bit pattern is `w` modulo `2^32`. -/
def toInt32 (w : ℕ) : ℤ :=
  if w % 2 ^ 32 < 2 ^ 31 then (w % 2 ^ 32 : ℕ) else ((w % 2 ^ 32 : ℕ) : ℤ) - 2 ^ 32

/-! ## Control flow -/

/-- Ways a routine can stop without a result. -/
inductive Fault where
  | assertion : Fault
  | outOfBounds : Fault
deriving DecidableEq, Repr

/-- The loop `for (k = 0; k < n; k++) body`, threading the state `s`; stops at
the first fault. -/
def forLoop {σ : Type} (n : ℕ) (body : ℕ → σ → Except Fault σ) (s : σ) :
    Except Fault σ :=
  match n with
  | 0 => .ok s
  | k + 1 =>
    match forLoop k body s with
    | .error e => .error e
    | .ok s' => body k s'

/-- The loop `for (k = 0; k < n; k++) body` for a body that cannot fault. -/
def forPure {σ : Type} (n : ℕ) (body : ℕ → σ → σ) (s : σ) : σ :=
  match n with
  | 0 => s
  | k + 1 => body k (forPure k body s)

/-! ## The peak routines -/

/-- The fields of `block_t` the filter reads. -/
structure block_t where
  p_buffer : List ℕ
  i_nb_samples : ℕ
  i_pts : ℤ

/-- The read cursor `p_sample` and the two accumulator arrays of a scan. -/
structure ScanState (α : Type) where
  p_sample : ℕ
  vmin : ℕ → α
  vmax : ℕ → α

/-- The pair of output arrays `(f_min, f_max)`. -/
abbrev Peaks := (ℕ → FloatVal) × (ℕ → FloatVal)

/-- `GetPeaksFL32`: the accumulators are the output arrays themselves. -/
def GetPeaksFL32 (p_block : block_t) (i_channels : ℕ) (f_min f_max : ℕ → FloatVal) :
    Except Fault Peaks :=
  let init : Peaks := forPure i_channels
    (fun ch (a : Peaks) => (Function.update a.1 ch 0, Function.update a.2 ch 0))
    (f_min, f_max)
  match forLoop p_block.i_nb_samples
      (fun _ (st : ScanState FloatVal) => forLoop i_channels
        (fun ch (st : ScanState FloatVal) =>
          match p_block.p_buffer[st.p_sample]? with
          | none => .error .outOfBounds
          | some w =>
            let val := decodeF32 w
            .ok { p_sample := st.p_sample + 1
                  vmin := if val < st.vmin ch then Function.update st.vmin ch val else st.vmin
                  vmax := if st.vmax ch < val then Function.update st.vmax ch val else st.vmax })
        st)
      { p_sample := 0, vmin := init.1, vmax := init.2 } with
  | .error e => .error e
  | .ok st => .ok (st.vmin, st.vmax)

/-- `GetPeaksFL64`: accumulate in `double`, narrow to `float` at the end. -/
def GetPeaksFL64 (INPUT_CHAN_MAX : ℕ) (p_block : block_t) (i_channels : ℕ)
    (f_min f_max : ℕ → FloatVal) : Except Fault Peaks :=
  if ¬ i_channels ≤ INPUT_CHAN_MAX then .error .assertion
  else
    match forLoop p_block.i_nb_samples
        (fun _ (st : ScanState FloatVal) => forLoop i_channels
          (fun ch (st : ScanState FloatVal) =>
            match p_block.p_buffer[st.p_sample]? with
            | none => .error .outOfBounds
            | some w =>
              let val := decodeF64 w
              .ok { p_sample := st.p_sample + 1
                    vmin := if val < st.vmin ch then Function.update st.vmin ch val else st.vmin
                    vmax := if st.vmax ch < val then Function.update st.vmax ch val else st.vmax })
          st)
        { p_sample := 0, vmin := fun _ => 0, vmax := fun _ => 0 } with
    | .error e => .error e
    | .ok st => .ok (forPure i_channels
        (fun ch (a : Peaks) =>
          (Function.update a.1 ch (doubleToFloat (st.vmin ch)),
           Function.update a.2 ch (doubleToFloat (st.vmax ch))))
        (f_min, f_max))

/-- `GetPeaksS16N`: accumulate in `int16_t`, scale by `2^15` at the end. -/
def GetPeaksS16N (INPUT_CHAN_MAX : ℕ) (p_block : block_t) (i_channels : ℕ)
    (f_min f_max : ℕ → FloatVal) : Except Fault Peaks :=
  if ¬ i_channels ≤ INPUT_CHAN_MAX then .error .assertion
  else
    match forLoop p_block.i_nb_samples
        (fun _ (st : ScanState ℤ) => forLoop i_channels
          (fun ch (st : ScanState ℤ) =>
            match p_block.p_buffer[st.p_sample]? with
            | none => .error .outOfBounds
            | some w =>
              let val := toInt16 w
              .ok { p_sample := st.p_sample + 1
                    vmin := if val < st.vmin ch then Function.update st.vmin ch val else st.vmin
                    vmax := if st.vmax ch < val then Function.update st.vmax ch val else st.vmax })
          st)
        { p_sample := 0, vmin := fun _ => 0, vmax := fun _ => 0 } with
    | .error e => .error e
    | .ok st => .ok (forPure i_channels
        (fun ch (a : Peaks) =>
          (Function.update a.1 ch (divPow2 (intToFloat (st.vmin ch)) 15),
           Function.update a.2 ch (divPow2 (intToFloat (st.vmax ch)) 15)))
        (f_min, f_max))

/-- `GetPeaksS32N`: accumulate in `int32_t`, scale by `2^31` at the end. -/
def GetPeaksS32N (INPUT_CHAN_MAX : ℕ) (p_block : block_t) (i_channels : ℕ)
    (f_min f_max : ℕ → FloatVal) : Except Fault Peaks :=
  if ¬ i_channels ≤ INPUT_CHAN_MAX then .error .assertion
  else
    match forLoop p_block.i_nb_samples
        (fun _ (st : ScanState ℤ) => forLoop i_channels
          (fun ch (st : ScanState ℤ) =>
            match p_block.p_buffer[st.p_sample]? with
            | none => .error .outOfBounds
            | some w =>
              let val := toInt32 w
              .ok { p_sample := st.p_sample + 1
                    vmin := if val < st.vmin ch then Function.update st.vmin ch val else st.vmin
                    vmax := if st.vmax ch < val then Function.update st.vmax ch val else st.vmax })
          st)
        { p_sample := 0, vmin := fun _ => 0, vmax := fun _ => 0 } with
    | .error e => .error e
    | .ok st => .ok (forPure i_channels
        (fun ch (a : Peaks) =>
          (Function.update a.1 ch (divPow2 (intToFloat (st.vmin ch)) 31),
           Function.update a.2 ch (divPow2 (intToFloat (st.vmax ch)) 31)))
        (f_min, f_max))

/-! ## The filter glue -/

/-- The four format tags `Open` switches on. -/
structure Codecs where
  VLC_CODEC_FL32 : ℕ
  VLC_CODEC_FL64 : ℕ
  VLC_CODEC_S16N : ℕ
  VLC_CODEC_S32N : ℕ

/-- The non-`NULL` values of the function pointer `get_peaks`. -/
inductive PeakRoutine where
  | FL32 : PeakRoutine
  | FL64 : PeakRoutine
  | S16N : PeakRoutine
  | S32N : PeakRoutine
deriving DecidableEq, Repr

/-- A call through the function pointer. -/
def PeakRoutine.call (INPUT_CHAN_MAX : ℕ) :
    PeakRoutine → block_t → ℕ → (ℕ → FloatVal) → (ℕ → FloatVal) → Except Fault Peaks
  | .FL32 => GetPeaksFL32
  | .FL64 => GetPeaksFL64 INPUT_CHAN_MAX
  | .S16N => GetPeaksS16N INPUT_CHAN_MAX
  | .S32N => GetPeaksS32N INPUT_CHAN_MAX

/-- `filter_sys_t`; an address is a number, `0` being `NULL`. -/
structure filter_sys_t where
  f_peaks_min : ℕ → FloatVal
  f_peaks_max : ℕ → FloatVal
  get_peaks : Option PeakRoutine
  cb_opaque : ℕ
  cb_greet : ℕ
  cb_peaks : ℕ

/-- A call of a user callback, with the arguments passed. -/
inductive Callback where
  | greet ( cb_opaque : ℕ) (name : String) : Callback
  | peaks ( cb_opaque : ℕ) (pts : ℤ) (channels : ℕ) (min max : ℕ → FloatVal) : Callback

/-- `Open`.  `created` is the object `vlc_object_create` returned (`none` for
`NULL`), the three addresses are what `var_InheritAddress` returned.  The
result `none` is `VLC_ENOMEM`; otherwise the initialised `p_sys` and the
callbacks called. -/
def Open (codecs : Codecs) (i_format : ℕ) (created : Option filter_sys_t)
    ( inherit_opaque inherit_greet inherit_peaks : ℕ) :
    Option (filter_sys_t × List Callback) :=
  match created with
  | none => none
  | some p_sys =>
    let get_peaks : Option PeakRoutine :=
      if i_format = codecs.VLC_CODEC_FL32 then some .FL32
      else if i_format = codecs.VLC_CODEC_FL64 then some .FL64
      else if i_format = codecs.VLC_CODEC_S16N then some .S16N
      else if i_format = codecs.VLC_CODEC_S32N then some .S32N
      else none
    some ({ p_sys with
            get_peaks := get_peaks
            cb_opaque := inherit_opaque
            cb_greet := inherit_greet
            cb_peaks := inherit_peaks },
          if inherit_greet ≠ 0 then [.greet inherit_opaque "Hello world!"] else [])

/-- `Process`.  `nb_channels` is what `aout_FormatNbChannels` returned for the
input format.  The result is the updated `p_sys`, the callbacks called and
the block returned. -/
def Process (INPUT_CHAN_MAX : ℕ) (p_sys : filter_sys_t) (nb_channels : ℕ)
    (p_block : block_t) : Except Fault (filter_sys_t × List Callback × block_t) :=
  let i_channels := nb_channels
  match p_sys.get_peaks with
  | some get_peaks =>
    match get_peaks.call INPUT_CHAN_MAX p_block i_channels p_sys.f_peaks_min p_sys.f_peaks_max with
    | .error e => .error e
    | .ok (f_min, f_max) =>
      .ok ({ p_sys with f_peaks_min := f_min, f_peaks_max := f_max },
           (if p_sys.cb_peaks ≠ 0 then
              [.peaks ( filter_sys_t.cb_opaque p_sys) p_block.i_pts i_channels f_min f_max] else []),
           p_block)
  | none =>
    let i_channels := 0
    .ok (p_sys,
         (if p_sys.cb_peaks ≠ 0 then
            [.peaks ( filter_sys_t.cb_opaque p_sys) p_block.i_pts i_channels p_sys.f_peaks_min p_sys.f_peaks_max]
          else []),
         p_block)

/-! ## The scan shared by the four routines -/

/-- One accumulator update `if (val < min) min = val`. -/
def updMin {α : Type} [LT α] [DecidableRel (fun a b : α => a < b)] (a val : α) : α :=
  if val < a then val else a

/-- One accumulator update `if (val > max) max = val`. -/
def updMax {α : Type} [LT α] [DecidableRel (fun a b : α => a < b)] (a val : α) : α :=
  if a < val then val else a

/-- The body of the inner loop, for a routine that decodes with `decode`. -/
def scanStep {α : Type} [LT α] [DecidableRel (fun a b : α => a < b)]
    (buf : List ℕ) (decode : ℕ → α) (ch : ℕ) (st : ScanState α) :
    Except Fault (ScanState α) :=
  match buf[st.p_sample]? with
  | none => .error .outOfBounds
  | some w =>
    let val := decode w
    .ok { p_sample := st.p_sample + 1
          vmin := if val < st.vmin ch then Function.update st.vmin ch val else st.vmin
          vmax := if st.vmax ch < val then Function.update st.vmax ch val else st.vmax }

/-- The two nested loops over `n` frames of `c` channels. -/
def scanFrames {α : Type} [LT α] [DecidableRel (fun a b : α => a < b)]
    (buf : List ℕ) (decode : ℕ → α) (n c : ℕ) (st : ScanState α) :
    Except Fault (ScanState α) :=
  forLoop n (fun _ st => forLoop c (scanStep buf decode) st) st

/-- The final store loop `f_min[ch] = lo ch; f_max[ch] = hi ch`. -/
def storeLoop (n : ℕ) (lo hi : ℕ → FloatVal) (f_min f_max : ℕ → FloatVal) : Peaks :=
  forPure n (fun ch (a : Peaks) => (Function.update a.1 ch (lo ch), Function.update a.2 ch (hi ch)))
    (f_min, f_max)

/-! ## Vocabulary of the claims -/

/-- The raw words of channel `c` in the first `n` frames of `i_channels`
interleaved channels: the entries at positions `i * i_channels + c`. -/
def channelWords (buf : List ℕ) (i_channels n c : ℕ) : List ℕ :=
  (List.range n).filterMap (fun i => buf[i * i_channels + c]?)

/-- The value of a non-NaN `FloatVal`. -/
def FloatVal.toX : FloatVal → Option XRat
  | .nan => none
  | .num x => some x

/-- The values of the non-NaN entries of a list of floating-point values. -/
def numbers (vs : List FloatVal) : List XRat := vs.filterMap FloatVal.toX

/-- The non-NaN `float` samples of channel `c` of a block. -/
def samplesFL32 (b : block_t) (i_channels c : ℕ) : List XRat :=
  numbers ((channelWords b.p_buffer i_channels b.i_nb_samples c).map decodeF32)

/-- The non-NaN `double` samples of channel `c` of a block. -/
def samplesFL64 (b : block_t) (i_channels c : ℕ) : List XRat :=
  numbers ((channelWords b.p_buffer i_channels b.i_nb_samples c).map decodeF64)

/-- The `int16_t` samples of channel `c` of a block. -/
def samplesS16N (b : block_t) (i_channels c : ℕ) : List ℤ :=
  (channelWords b.p_buffer i_channels b.i_nb_samples c).map toInt16

/-- The `int32_t` samples of channel `c` of a block. -/
def samplesS32N (b : block_t) (i_channels c : ℕ) : List ℤ :=
  (channelWords b.p_buffer i_channels b.i_nb_samples c).map toInt32

/-- The zero-seeded minimum `min(0, min of l)`. -/
def peakMin {α : Type} [LinearOrder α] [Zero α] (l : List α) : α := l.foldl min 0

/-- The zero-seeded maximum `max(0, max of l)`. -/
def peakMax {α : Type} [LinearOrder α] [Zero α] (l : List α) : α := l.foldl max 0

/-- The buffer of a block holds exactly its `i_nb_samples` frames of
`i_channels` samples. -/
def block_t.wholeFrames (b : block_t) (i_channels : ℕ) : Prop :=
  b.p_buffer.length = b.i_nb_samples * i_channels

instance (b : block_t) (i_channels : ℕ) : Decidable (b.wholeFrames i_channels) :=
  inferInstanceAs (Decidable (_ = _))

/-- The block made of the frames of `a` followed by the frames of `b`. -/
def block_t.append (a b : block_t) : block_t :=
  { p_buffer := a.p_buffer ++ b.p_buffer
    i_nb_samples := a.i_nb_samples + b.i_nb_samples
    i_pts := a.i_pts }

/-- What C10 says of one routine `R`: on `A`, on `B` and on `A ++ B` it
succeeds, the `min[c]` of `A ++ B` is the smaller of the two `min[c]`, its
`max[c]` the larger of the two `max[c]`. -/
def ConcatLaw (R : block_t → ℕ → (ℕ → FloatVal) → (ℕ → FloatVal) → Except Fault Peaks)
    (A B : block_t) (C c : ℕ) (f_min f_max : ℕ → FloatVal) : Prop :=
  ∃ rA rB rAB, ∃ lo₁ lo₂ hi₁ hi₂ : XRat,
    R A C f_min f_max = .ok rA ∧ R B C f_min f_max = .ok rB ∧
    R (A.append B) C f_min f_max = .ok rAB ∧
    rA.1 c = .num lo₁ ∧ rB.1 c = .num lo₂ ∧ rAB.1 c = .num (min lo₁ lo₂) ∧
    rA.2 c = .num hi₁ ∧ rB.2 c = .num hi₂ ∧ rAB.2 c = .num (max hi₁ hi₂)

/-- A reported value lies in the closed range `[-1.0, 1.0]`. -/
def inUnitRange (v : FloatVal) : Prop := .num (finite (-1)) ≤ v ∧ v ≤ .num (finite 1)

end NoaHello

/-!
# Picture summary of the `noa_vsummary` video filter

A shallow embedding of `Process` of `modules/video_filter/noa_vsummary.c`.
A pointer is an address, `0` being `NULL`; a picture pointer is an optional
picture.  The array `p` of a picture has the declared extent
`PICTURE_PLANE_MAX`, as have the four local arrays; an access at an index
outside that extent is the fault `outOfBounds`.  The filter chain is external
code: `filter_chain_VideoFilter` is what it returns for a picture at the time
of the call.  `PICTURE_PLANE_MAX` comes from a header of the host framework
and is a parameter.  Calls of the user callback and of `picture_Release`,
`picture_Hold` are recorded with their arguments.
-/

namespace NoaVSummary

/-- The macro `MIN(X, Y)`. -/
def MIN (X Y : ℤ) : ℤ := if X < Y then X else Y

/-- The fields of `plane_t` the filter reads. -/
structure plane_t where
  p_pixels : ℕ
  i_visible_lines : ℤ
  i_visible_pitch : ℤ
  i_pitch : ℤ

/-- The fields of `picture_t` the filter reads. -/
structure picture_t where
  p : ℕ → plane_t
  i_planes : ℤ
  date : ℤ

/-- `filter_sys_t` without the chain handle. -/
structure filter_sys_t where
  cb_opaque : ℕ
  cb_picture : ℕ

/-- A call into external code, with the arguments passed. -/
inductive Event where
  | cb_picture ( cb_opaque : ℕ) (pts : ℤ) (planes : ℤ) (pixels : List ℕ)
      (lines widths pitches : List ℤ) : Event
  | picture_Release (pic : picture_t) : Event
  | picture_Hold (pic : Option picture_t) : Event

/-- The four local arrays of `Process`. -/
structure Arrays where
  pixels : List ℕ
  lines : List ℤ
  widths : List ℤ
  pitches : List ℤ

/-- The read `p[i]` of an array of declared extent `extent`. -/
def load {α : Type} (extent : ℕ) (p : ℕ → α) (i : ℕ) : Except NoaHello.Fault α :=
  if i < extent then .ok (p i) else .error .outOfBounds

/-- The write `a[i] = v` into a local array. -/
def store {α : Type} (a : List α) (i : ℕ) (v : α) : Except NoaHello.Fault (List α) :=
  if i < a.length then .ok (a.set i v) else .error .outOfBounds

/-- `Process`.  The result is the calls made, in order, and the picture
returned. -/
def Process (PICTURE_PLANE_MAX : ℕ) (filter_chain_VideoFilter : picture_t → Option picture_t)
    (p_sys : filter_sys_t) (p_inpic : Option picture_t) :
    Except NoaHello.Fault (List Event × Option picture_t) :=
  let init : Arrays :=
    { pixels := List.replicate PICTURE_PLANE_MAX 0
      lines := List.replicate PICTURE_PLANE_MAX 0
      widths := List.replicate PICTURE_PLANE_MAX 0
      pitches := List.replicate PICTURE_PLANE_MAX 0 }
  let finish (calls : List Event) : Except NoaHello.Fault (List Event × Option picture_t) :=
    .ok (calls ++ [.picture_Hold p_inpic], p_inpic)
  match p_inpic with
  | none => finish []
  | some inpic =>
    if p_sys.cb_picture = 0 then finish []
    else
      match filter_chain_VideoFilter inpic with
      | none => finish []
      | some scaled_picture =>
        let planes := MIN scaled_picture.i_planes PICTURE_PLANE_MAX
        match NoaHello.forLoop planes.toNat
            (fun i (a : Arrays) =>
              match load PICTURE_PLANE_MAX scaled_picture.p i with
              | .error e => .error e
              | .ok plane =>
                match store a.pixels i plane.p_pixels, store a.lines i plane.i_visible_lines,
                    store a.widths i plane.i_visible_pitch, store a.pitches i plane.i_pitch with
                | .ok pixels, .ok lines, .ok widths, .ok pitches =>
                  .ok { pixels := pixels, lines := lines, widths := widths, pitches := pitches }
                | _, _, _, _ => .error .outOfBounds)
            init with
        | .error e => .error e
        | .ok a =>
          finish [.cb_picture ( filter_sys_t.cb_opaque p_sys) scaled_picture.date planes
              a.pixels a.lines a.widths a.pitches,
            .picture_Release scaled_picture]

/-- The closed form of a local array after the first `n` planes are stored:
entry `i` is `f i` below `n` and the initial `0` from `n` on. -/
def filled {α : Type} [Zero α] (extent n : ℕ) (f : ℕ → α) : List α :=
  (List.range extent).map (fun i => if i < n then f i else 0)

end NoaVSummary

/-!
# The `noa_invert` video filter

A shallow embedding of `Filter` of `modules/video_filter/noa_invert.c`.  A
picture pointer is an optional picture, whatever a picture is.  The filter
chain is external code: `filter_chain_VideoFilter` is what it returns for a
picture at the time of the call, and each picture handed to it is recorded.
-/

namespace NoaInvert

/-- `filter_sys_t` without the chain handles; an address is a number. -/
structure filter_sys_t where
  b_active : Bool
  cb_opaque : ℕ
  cb_greet : ℕ

/-- `Filter`.  The result is the picture pointer returned and the pictures
handed to the filter chain. -/
def Filter {picture_t : Type} (filter_chain_VideoFilter : picture_t → Option picture_t)
    (p_sys : filter_sys_t) (p_pic : Option picture_t) : Option picture_t × List picture_t :=
  match p_pic with
  | none => (none, [])
  | some pic =>
    if !p_sys.b_active then (some pic, [])
    else (filter_chain_VideoFilter pic, [pic])

end NoaInvert

namespace NoaHello

/-! ## Facts about the loops -/

theorem storeLoop_spec (n : ℕ) (lo hi f_min f_max : ℕ → FloatVal) :
    storeLoop n lo hi f_min f_max =
      (fun c => if c < n then lo c else f_min c, fun c => if c < n then hi c else f_max c) := by
  induction n with
  | zero => simp [storeLoop, forPure]
  | succ k ih =>
    unfold storeLoop at ih ⊢
    rw [forPure, ih]
    refine Prod.ext ?_ ?_ <;> funext c <;> by_cases hc : c = k
    · subst hc; simp
    · have : c < k + 1 ↔ c < k := by omega
      simp [Function.update_noteq hc, this]
    · subst hc; simp
    · have : c < k + 1 ↔ c < k := by omega
      simp [Function.update_noteq hc, this]

theorem scanStep_eq {α : Type} [LT α] [DecidableRel (fun a b : α => a < b)]
    (buf : List ℕ) (decode : ℕ → α) (ch : ℕ) (st : ScanState α)
    (h : st.p_sample < buf.length) :
    scanStep buf decode ch st = .ok
      { p_sample := st.p_sample + 1
        vmin := Function.update st.vmin ch (updMin (st.vmin ch) (decode (buf.getD st.p_sample 0)))
        vmax := Function.update st.vmax ch (updMax (st.vmax ch) (decode (buf.getD st.p_sample 0))) } := by
  unfold scanStep
  rw [List.getElem?_eq_getElem h]
  simp only [List.getD_eq_getElem?_getD, List.getElem?_eq_getElem h, Option.getD_some]
  congr 1
  simp only [ScanState.mk.injEq, true_and]
  constructor
  · unfold updMin; split_ifs <;> simp
  · unfold updMax; split_ifs <;> simp

theorem inner_loop {α : Type} [LT α] [DecidableRel (fun a b : α => a < b)]
    (buf : List ℕ) (decode : ℕ → α) (st : ScanState α) (k : ℕ)
    (h : st.p_sample + k ≤ buf.length) :
    forLoop k (scanStep buf decode) st = .ok
      { p_sample := st.p_sample + k
        vmin := fun c => if c < k then updMin (st.vmin c) (decode (buf.getD (st.p_sample + c) 0))
                         else st.vmin c
        vmax := fun c => if c < k then updMax (st.vmax c) (decode (buf.getD (st.p_sample + c) 0))
                         else st.vmax c } := by
  induction k with
  | zero => simp [forLoop]
  | succ k ih =>
    rw [forLoop, ih (by omega)]
    simp only
    rw [scanStep_eq _ _ _ _ (by simp only; omega)]
    congr 1
    simp only [ScanState.mk.injEq, lt_self_iff_false, if_false]
    refine ⟨by omega, ?_, ?_⟩ <;> funext c <;> by_cases hc : c = k
    · subst hc; simp
    · have : c < k + 1 ↔ c < k := by omega
      simp [Function.update_noteq hc, this]
    · subst hc; simp
    · have : c < k + 1 ↔ c < k := by omega
      simp [Function.update_noteq hc, this]

theorem scanFrames_spec {α : Type} [LT α] [DecidableRel (fun a b : α => a < b)]
    (buf : List ℕ) (decode : ℕ → α) (n C : ℕ) (lo hi : ℕ → α)
    (h : n * C ≤ buf.length) :
    scanFrames buf decode n C { p_sample := 0, vmin := lo, vmax := hi } = .ok
      { p_sample := n * C
        vmin := fun c => if c < C then
            (List.range n).foldl (fun a i => updMin a (decode (buf.getD (i * C + c) 0))) (lo c)
          else lo c
        vmax := fun c => if c < C then
            (List.range n).foldl (fun a i => updMax a (decode (buf.getD (i * C + c) 0))) (hi c)
          else hi c } := by
  induction n with
  | zero => simp [scanFrames, forLoop]
  | succ n ih =>
    have h' : n * C ≤ buf.length := by
      have : n * C ≤ (n + 1) * C := Nat.mul_le_mul_right _ (Nat.le_succ n)
      omega
    unfold scanFrames at ih ⊢
    rw [forLoop, ih h']
    simp only
    rw [inner_loop _ _ _ _ (by simp only; rw [Nat.succ_mul] at h; omega)]
    congr 1
    simp only [ScanState.mk.injEq]
    refine ⟨by rw [Nat.succ_mul], ?_, ?_⟩ <;> funext c <;> by_cases hc : c < C <;>
      simp [hc, List.range_succ]

theorem channelWords_succ (buf : List ℕ) (C n c : ℕ) (hc : c < C)
    (h : (n + 1) * C ≤ buf.length) :
    channelWords buf C (n + 1) c = channelWords buf C n c ++ [buf.getD (n * C + c) 0] := by
  have hlt : n * C + c < buf.length := by rw [Nat.succ_mul] at h; omega
  simp [channelWords, List.range_succ, List.filterMap_append, List.getElem?_eq_getElem hlt]

theorem channelWords_length (buf : List ℕ) (C n c : ℕ) (hc : c < C)
    (h : n * C ≤ buf.length) : (channelWords buf C n c).length = n := by
  induction n with
  | zero => simp [channelWords]
  | succ n ih =>
    have h' : n * C ≤ buf.length := by rw [Nat.succ_mul] at h; omega
    rw [channelWords_succ buf C n c hc h, List.length_append, ih h']
    simp

theorem fold_channel {α : Type} (upd : α → α → α) (decode : ℕ → α)
    (buf : List ℕ) (C n c : ℕ) (a : α) (hc : c < C) (h : n * C ≤ buf.length) :
    (List.range n).foldl (fun a i => upd a (decode (buf.getD (i * C + c) 0))) a =
      ((channelWords buf C n c).map decode).foldl upd a := by
  induction n with
  | zero => simp [channelWords]
  | succ n ih =>
    have h' : n * C ≤ buf.length := by rw [Nat.succ_mul] at h; omega
    rw [channelWords_succ buf C n c hc h, List.range_succ, List.foldl_append, ih h']
    simp [List.foldl_append]

/-- What a scan over well-sized input leaves in the accumulators. -/
theorem scanFrames_channel {α : Type} [LT α] [DecidableRel (fun a b : α => a < b)]
    (buf : List ℕ) (decode : ℕ → α) (n C : ℕ) (lo hi : ℕ → α)
    (h : n * C ≤ buf.length) :
    scanFrames buf decode n C { p_sample := 0, vmin := lo, vmax := hi } = .ok
      { p_sample := n * C
        vmin := fun c => if c < C then
            ((channelWords buf C n c).map decode).foldl updMin (lo c) else lo c
        vmax := fun c => if c < C then
            ((channelWords buf C n c).map decode).foldl updMax (hi c) else hi c } := by
  rw [scanFrames_spec buf decode n C lo hi h]
  congr 1
  simp only [ScanState.mk.injEq, true_and]
  constructor <;> funext c <;> by_cases hc : c < C
  · simp only [hc, if_true]; exact fold_channel updMin decode buf C n c _ hc h
  · simp [hc]
  · simp only [hc, if_true]; exact fold_channel updMax decode buf C n c _ hc h
  · simp [hc]

theorem GetPeaksFL32_scan (p_block : block_t) (i_channels : ℕ) (f_min f_max : ℕ → FloatVal) :
    GetPeaksFL32 p_block i_channels f_min f_max =
      match scanFrames p_block.p_buffer decodeF32 p_block.i_nb_samples i_channels
          { p_sample := 0
            vmin := (storeLoop i_channels (fun _ => 0) (fun _ => 0) f_min f_max).1
            vmax := (storeLoop i_channels (fun _ => 0) (fun _ => 0) f_min f_max).2 } with
      | .error e => .error e
      | .ok st => .ok (st.vmin, st.vmax) := rfl

theorem GetPeaksFL64_scan (M : ℕ) (p_block : block_t) (i_channels : ℕ)
    (f_min f_max : ℕ → FloatVal) :
    GetPeaksFL64 M p_block i_channels f_min f_max =
      if ¬ i_channels ≤ M then .error .assertion
      else
        match scanFrames p_block.p_buffer decodeF64 p_block.i_nb_samples i_channels
            { p_sample := 0, vmin := fun _ => 0, vmax := fun _ => 0 } with
        | .error e => .error e
        | .ok st => .ok (storeLoop i_channels (fun ch => doubleToFloat (st.vmin ch))
            (fun ch => doubleToFloat (st.vmax ch)) f_min f_max) := rfl

theorem GetPeaksS16N_scan (M : ℕ) (p_block : block_t) (i_channels : ℕ)
    (f_min f_max : ℕ → FloatVal) :
    GetPeaksS16N M p_block i_channels f_min f_max =
      if ¬ i_channels ≤ M then .error .assertion
      else
        match scanFrames p_block.p_buffer toInt16 p_block.i_nb_samples i_channels
            { p_sample := 0, vmin := fun _ => 0, vmax := fun _ => 0 } with
        | .error e => .error e
        | .ok st => .ok (storeLoop i_channels (fun ch => divPow2 (intToFloat (st.vmin ch)) 15)
            (fun ch => divPow2 (intToFloat (st.vmax ch)) 15) f_min f_max) := rfl

theorem GetPeaksS32N_scan (M : ℕ) (p_block : block_t) (i_channels : ℕ)
    (f_min f_max : ℕ → FloatVal) :
    GetPeaksS32N M p_block i_channels f_min f_max =
      if ¬ i_channels ≤ M then .error .assertion
      else
        match scanFrames p_block.p_buffer toInt32 p_block.i_nb_samples i_channels
            { p_sample := 0, vmin := fun _ => 0, vmax := fun _ => 0 } with
        | .error e => .error e
        | .ok st => .ok (storeLoop i_channels (fun ch => divPow2 (intToFloat (st.vmin ch)) 31)
            (fun ch => divPow2 (intToFloat (st.vmax ch)) 31) f_min f_max) := rfl

/-! ## Facts about rounding to binary32 -/

theorem rne_intCast (n : ℤ) : rne (n : ℚ) = n := by
  simp [rne]

theorem rne_bounds (x : ℚ) : ⌊x⌋ ≤ rne x ∧ rne x ≤ ⌊x⌋ + 1 := by
  unfold rne
  split_ifs <;> omega

theorem rne_mono {x y : ℚ} (h : x ≤ y) : rne x ≤ rne y := by
  have hf : ⌊x⌋ ≤ ⌊y⌋ := Int.floor_mono h
  rcases lt_or_eq_of_le hf with hlt | heq
  · have := (rne_bounds x).2
    have := (rne_bounds y).1
    omega
  · unfold rne
    rw [heq]
    have hxy : x - ⌊y⌋ ≤ y - ⌊y⌋ := by linarith
    split_ifs <;> first | omega | (exfalso; linarith)

theorem rne_neg (x : ℚ) : rne (-x) = - rne x := by
  by_cases hx : (⌊x⌋ : ℚ) = x
  · rw [← hx, ← Int.cast_neg, rne_intCast, rne_intCast]
  · have hlt : (⌊x⌋ : ℚ) < x := lt_of_le_of_ne (Int.floor_le x) hx
    have hfl : ⌊-x⌋ = -⌊x⌋ - 1 := by
      rw [Int.floor_eq_iff]
      have := Int.lt_floor_add_one x
      push_cast
      constructor <;> linarith
    unfold rne
    rw [hfl]
    push_cast
    split_ifs <;> first | omega | (exfalso; linarith)

theorem log_eq_of_binade {q : ℚ} {k : ℤ} (h1 : (2 : ℚ) ^ k ≤ q) (h2 : q < (2 : ℚ) ^ (k + 1)) :
    Int.log 2 q = k := by
  have hq : 0 < q := lt_of_lt_of_le (by positivity) h1
  have a : k ≤ Int.log 2 q := (Int.zpow_le_iff_le_log (by norm_num) hq).1 (by exact_mod_cast h1)
  have b : Int.log 2 q < k + 1 := (Int.lt_zpow_iff_log_lt (by norm_num) hq).1 (by exact_mod_cast h2)
  omega

theorem zpow_log_le {q : ℚ} (hq : 0 < q) : (2 : ℚ) ^ Int.log 2 q ≤ q := by
  have := Int.zpow_log_le_self (b := 2) (by norm_num) hq
  exact_mod_cast this

theorem lt_zpow_log_succ {q : ℚ} : q < (2 : ℚ) ^ (Int.log 2 q + 1) := by
  have := Int.lt_zpow_succ_log_self (b := 2) (by norm_num) q
  exact_mod_cast this

theorem f32Expo_neg (q : ℚ) : f32Expo (-q) = f32Expo q := by
  simp [f32Expo]

theorem f32RoundQ_zero : f32RoundQ 0 = 0 := by
  simp [f32RoundQ, rne]

theorem f32RoundQ_neg (q : ℚ) : f32RoundQ (-q) = - f32RoundQ q := by
  unfold f32RoundQ
  rw [f32Expo_neg, neg_div, rne_neg]
  push_cast
  ring

theorem f32RoundQ_nonneg {q : ℚ} (h : 0 ≤ q) : 0 ≤ f32RoundQ q := by
  unfold f32RoundQ
  have h2 : (0 : ℚ) < 2 ^ f32Expo q := by positivity
  have : rne 0 ≤ rne (q / 2 ^ f32Expo q) := rne_mono (by positivity)
  have h0 : rne 0 = 0 := by simpa using rne_intCast 0
  rw [h0] at this
  have : (0 : ℚ) ≤ (rne (q / 2 ^ f32Expo q) : ℚ) := by exact_mod_cast this
  positivity

theorem f32RoundQ_le_top {q : ℚ} (h : 0 < q) :
    f32RoundQ q ≤ 2 ^ (f32Expo q + 24) := by
  unfold f32RoundQ
  have h2 : (0 : ℚ) < 2 ^ f32Expo q := by positivity
  have hq : q < (2 : ℚ) ^ (f32Expo q + 24) := by
    calc q < (2 : ℚ) ^ (Int.log 2 q + 1) := lt_zpow_log_succ
      _ ≤ (2 : ℚ) ^ (f32Expo q + 24) := by
        apply zpow_le_zpow_right₀ (by norm_num)
        unfold f32Expo
        rw [abs_of_pos h]
        have := le_max_left (Int.log 2 q) (-126)
        omega
  have hdiv : q / 2 ^ f32Expo q ≤ ((2 ^ 24 : ℤ) : ℚ) := by
    rw [div_le_iff₀ h2]
    push_cast
    rw [zpow_add₀ (by norm_num : (2 : ℚ) ≠ 0)] at hq
    have e : (2 : ℚ) ^ (24 : ℤ) = 2 ^ 24 := by norm_num
    rw [e] at hq
    linarith
  have := rne_mono hdiv
  rw [rne_intCast] at this
  have hc : (rne (q / 2 ^ f32Expo q) : ℚ) ≤ ((2 ^ 24 : ℤ) : ℚ) := by exact_mod_cast this
  calc (rne (q / 2 ^ f32Expo q) : ℚ) * 2 ^ f32Expo q
      ≤ ((2 ^ 24 : ℤ) : ℚ) * 2 ^ f32Expo q := by
        apply mul_le_mul_of_nonneg_right hc (le_of_lt h2)
    _ = 2 ^ (f32Expo q + 24) := by
        rw [zpow_add₀ (by norm_num : (2 : ℚ) ≠ 0)]
        push_cast
        norm_num
        ring

theorem f32RoundQ_ge_bot {q : ℚ} (h : 0 < q) (hl : -126 ≤ Int.log 2 q) :
    (2 : ℚ) ^ (f32Expo q + 23) ≤ f32RoundQ q := by
  unfold f32RoundQ
  have h2 : (0 : ℚ) < 2 ^ f32Expo q := by positivity
  have he : f32Expo q + 23 = Int.log 2 q := by
    unfold f32Expo
    rw [abs_of_pos h, max_eq_left hl]
    omega
  have hq : (2 : ℚ) ^ (f32Expo q + 23) ≤ q := by
    rw [he]; exact zpow_log_le h
  have hdiv : ((2 ^ 23 : ℤ) : ℚ) ≤ q / 2 ^ f32Expo q := by
    rw [le_div_iff₀ h2]
    push_cast
    rw [zpow_add₀ (by norm_num : (2 : ℚ) ≠ 0)] at hq
    have e : (2 : ℚ) ^ (23 : ℤ) = 2 ^ 23 := by norm_num
    rw [e] at hq
    linarith
  have := rne_mono hdiv
  rw [rne_intCast] at this
  have hc : ((2 ^ 23 : ℤ) : ℚ) ≤ (rne (q / 2 ^ f32Expo q) : ℚ) := by exact_mod_cast this
  calc (2 : ℚ) ^ (f32Expo q + 23) = ((2 ^ 23 : ℤ) : ℚ) * 2 ^ f32Expo q := by
        rw [zpow_add₀ (by norm_num : (2 : ℚ) ≠ 0)]
        push_cast
        norm_num
        ring
    _ ≤ (rne (q / 2 ^ f32Expo q) : ℚ) * 2 ^ f32Expo q := by
        apply mul_le_mul_of_nonneg_right hc (le_of_lt h2)

theorem f32RoundQ_mono_pos {x y : ℚ} (hx : 0 < x) (h : x ≤ y) :
    f32RoundQ x ≤ f32RoundQ y := by
  have hy : 0 < y := lt_of_lt_of_le hx h
  have hlog : Int.log 2 x ≤ Int.log 2 y := Int.log_mono_right hx h
  have hexp : f32Expo x ≤ f32Expo y := by
    unfold f32Expo
    rw [abs_of_pos hx, abs_of_pos hy]
    have := max_le_max hlog (le_refl (-126 : ℤ))
    omega
  rcases lt_or_eq_of_le hexp with hlt | heq
  · have hly : -126 ≤ Int.log 2 y := by
      by_contra hcon
      push_neg at hcon
      unfold f32Expo at hlt
      rw [abs_of_pos hx, abs_of_pos hy, max_eq_right (le_of_lt hcon)] at hlt
      have := le_max_right (Int.log 2 x) (-126)
      omega
    calc f32RoundQ x ≤ 2 ^ (f32Expo x + 24) := f32RoundQ_le_top hx
      _ ≤ 2 ^ (f32Expo y + 23) := zpow_le_zpow_right₀ (by norm_num) (by omega)
      _ ≤ f32RoundQ y := f32RoundQ_ge_bot hy hly
  · unfold f32RoundQ
    rw [heq]
    have h2 : (0 : ℚ) < 2 ^ f32Expo y := by positivity
    have : rne (x / 2 ^ f32Expo y) ≤ rne (y / 2 ^ f32Expo y) :=
      rne_mono (div_le_div_of_nonneg_right h (le_of_lt h2))
    have hc : (rne (x / 2 ^ f32Expo y) : ℚ) ≤ (rne (y / 2 ^ f32Expo y) : ℚ) := by
      exact_mod_cast this
    exact mul_le_mul_of_nonneg_right hc (le_of_lt h2)

theorem f32RoundQ_mono {x y : ℚ} (h : x ≤ y) : f32RoundQ x ≤ f32RoundQ y := by
  rcases lt_trichotomy 0 x with hx | hx | hx
  · exact f32RoundQ_mono_pos hx h
  · subst hx
    rw [f32RoundQ_zero]; exact f32RoundQ_nonneg h
  · rcases le_or_lt 0 y with hy | hy
    · have a : f32RoundQ x ≤ 0 := by
        have := f32RoundQ_nonneg (q := -x) (by linarith)
        rw [f32RoundQ_neg] at this
        linarith
      exact le_trans a (f32RoundQ_nonneg hy)
    · have := f32RoundQ_mono_pos (x := -y) (y := -x) (by linarith) (by linarith)
      rw [f32RoundQ_neg, f32RoundQ_neg] at this
      linarith

theorem f32RoundQ_exact (m k : ℤ) (hm : |m| < 2 ^ 24) (hk : -149 ≤ k) :
    f32RoundQ ((m : ℚ) * 2 ^ k) = (m : ℚ) * 2 ^ k := by
  by_cases h0 : m = 0
  · subst h0; simp [f32RoundQ_zero]
  · have hpos : (0 : ℚ) < |(m : ℚ) * 2 ^ k| := by
      apply abs_pos.2
      have : (m : ℚ) ≠ 0 := by exact_mod_cast h0
      positivity
    have hlt : |(m : ℚ) * 2 ^ k| < (2 : ℚ) ^ (24 + k) := by
      rw [abs_mul, abs_of_pos (by positivity : (0 : ℚ) < 2 ^ k),
        zpow_add₀ (by norm_num : (2 : ℚ) ≠ 0)]
      have : (|m| : ℚ) < 2 ^ 24 := by exact_mod_cast hm
      have e : (2 : ℚ) ^ (24 : ℤ) = 2 ^ 24 := by norm_num
      rw [e]
      exact mul_lt_mul_of_pos_right (by exact_mod_cast hm) (by positivity)
    have hlog : Int.log 2 |(m : ℚ) * 2 ^ k| < 24 + k :=
      (Int.lt_zpow_iff_log_lt (by norm_num) hpos).1 (by exact_mod_cast hlt)
    have hexp : f32Expo ((m : ℚ) * 2 ^ k) ≤ k := by
      unfold f32Expo
      have := max_le (a := Int.log 2 |(m : ℚ) * 2 ^ k|) (b := -126) (c := 23 + k)
        (by omega) (by omega)
      omega
    obtain ⟨n, hn⟩ := Int.eq_ofNat_of_zero_le (sub_nonneg.2 hexp)
    have hk' : k = f32Expo ((m : ℚ) * 2 ^ k) + (n : ℤ) := by omega
    unfold f32RoundQ
    generalize f32Expo ((m : ℚ) * 2 ^ k) = e at hk' ⊢
    subst hk'
    have h2 : (2 : ℚ) ^ e ≠ 0 := by positivity
    have : (m : ℚ) * 2 ^ (e + (n : ℤ)) / 2 ^ e = ((m * 2 ^ n : ℤ) : ℚ) := by
      rw [zpow_add₀ (by norm_num : (2 : ℚ) ≠ 0), zpow_natCast]
      push_cast
      field_simp
      ring
    rw [this, rne_intCast, zpow_add₀ (by norm_num : (2 : ℚ) ≠ 0), zpow_natCast]
    push_cast
    ring

theorem rne_scaled_abs_le (q : ℚ) : |rne (q / 2 ^ f32Expo q)| ≤ 2 ^ 24 := by
  have key : ∀ x : ℚ, 0 < x → rne (x / 2 ^ f32Expo x) ≤ 2 ^ 24 ∧ 0 ≤ rne (x / 2 ^ f32Expo x) := by
    intro x hx
    have h2 : (0 : ℚ) < 2 ^ f32Expo x := by positivity
    have hq : x < (2 : ℚ) ^ (f32Expo x + 24) := by
      calc x < (2 : ℚ) ^ (Int.log 2 x + 1) := lt_zpow_log_succ
        _ ≤ (2 : ℚ) ^ (f32Expo x + 24) := by
          apply zpow_le_zpow_right₀ (by norm_num)
          unfold f32Expo
          rw [abs_of_pos hx]
          have := le_max_left (Int.log 2 x) (-126)
          omega
    have hdiv : x / 2 ^ f32Expo x ≤ ((2 ^ 24 : ℤ) : ℚ) := by
      rw [div_le_iff₀ h2]
      push_cast
      rw [zpow_add₀ (by norm_num : (2 : ℚ) ≠ 0)] at hq
      have e : (2 : ℚ) ^ (24 : ℤ) = 2 ^ 24 := by norm_num
      rw [e] at hq
      linarith
    have a := rne_mono hdiv
    rw [rne_intCast] at a
    have b : rne ((0 : ℤ) : ℚ) ≤ rne (x / 2 ^ f32Expo x) :=
      rne_mono (by push_cast; positivity)
    rw [rne_intCast] at b
    exact ⟨a, b⟩
  rcases lt_trichotomy 0 q with hq | hq | hq
  · obtain ⟨a, b⟩ := key q hq
    rw [abs_of_nonneg b]; exact a
  · subst hq
    have : rne ((0 : ℚ) / 2 ^ f32Expo 0) = 0 := by
      rw [zero_div]; simpa using rne_intCast 0
    rw [this]; norm_num
  · obtain ⟨a, b⟩ := key (-q) (by linarith)
    rw [f32Expo_neg, neg_div, rne_neg] at a b
    rw [abs_of_nonpos (by omega)]; exact a

theorem f32RoundQ_repr (q : ℚ) :
    ∃ m k : ℤ, |m| < 2 ^ 24 ∧ f32Expo q ≤ k ∧ f32RoundQ q = (m : ℚ) * 2 ^ k := by
  have hz := rne_scaled_abs_le q
  rcases lt_or_eq_of_le hz with hlt | heq
  · exact ⟨rne (q / 2 ^ f32Expo q), f32Expo q, hlt, le_refl _, rfl⟩
  · rcases abs_eq (by norm_num : (0 : ℤ) ≤ 2 ^ 24) |>.1 heq with h | h
    · refine ⟨2 ^ 23, f32Expo q + 1, by norm_num, by omega, ?_⟩
      unfold f32RoundQ
      rw [h, zpow_add₀ (by norm_num : (2 : ℚ) ≠ 0)]
      push_cast
      ring
    · refine ⟨-2 ^ 23, f32Expo q + 1, by norm_num, by omega, ?_⟩
      unfold f32RoundQ
      rw [h, zpow_add₀ (by norm_num : (2 : ℚ) ≠ 0)]
      push_cast
      ring

theorem f32Expo_intCast (n : ℤ) (h : n ≠ 0) : -23 ≤ f32Expo (n : ℚ) := by
  unfold f32Expo
  have h1 : (1 : ℚ) ≤ |(n : ℚ)| := by
    have : (1 : ℤ) ≤ |n| := Int.one_le_abs h
    exact_mod_cast this
  have : 0 ≤ Int.log 2 |(n : ℚ)| := by
    have := (Int.zpow_le_iff_le_log (b := 2) (x := 0) (by norm_num)
      (lt_of_lt_of_le one_pos h1)).1 (by simpa using h1)
    exact this
  have := le_max_left (Int.log 2 |(n : ℚ)|) (-126)
  omega

/-- Dividing the `float` image of an integer by `2^j` is exact. -/
theorem f32RoundQ_int_div (n : ℤ) (j : ℕ) (hj : j ≤ 126) :
    f32RoundQ (f32RoundQ (n : ℚ) / 2 ^ j) = f32RoundQ (n : ℚ) / 2 ^ j := by
  by_cases h0 : n = 0
  · subst h0; simp [f32RoundQ_zero]
  · obtain ⟨m, k, hm, hk, he⟩ := f32RoundQ_repr (n : ℚ)
    have := f32Expo_intCast n h0
    have e2 : f32RoundQ (n : ℚ) / 2 ^ j = (m : ℚ) * 2 ^ (k - (j : ℤ)) := by
      rw [he, zpow_sub₀ (by norm_num : (2 : ℚ) ≠ 0), zpow_natCast]
      ring
    rw [e2]
    exact f32RoundQ_exact m _ hm (by omega)

/-- An integer of magnitude below `2^24` divided by `2^j` is a `float`. -/
theorem f32RoundQ_small_div (n : ℤ) (j : ℕ) (hn : |n| < 2 ^ 24) (hj : j ≤ 149) :
    f32RoundQ ((n : ℚ) / 2 ^ j) = (n : ℚ) / 2 ^ j := by
  have e2 : (n : ℚ) / 2 ^ j = (n : ℚ) * 2 ^ (-(j : ℤ)) := by
    rw [zpow_neg, zpow_natCast]; ring
  rw [e2]
  exact f32RoundQ_exact n _ hn (by omega)

theorem f32RoundQ_small (n : ℤ) (hn : |n| < 2 ^ 24) : f32RoundQ (n : ℚ) = n := by
  simpa using f32RoundQ_small_div n 0 hn (by norm_num)

theorem f32RoundQ_two_pow (j : ℕ) : f32RoundQ ((2 : ℚ) ^ j) = 2 ^ j := by
  have := f32RoundQ_exact 1 j (by norm_num) (by omega)
  simpa using this

theorem finite_le_finite {a b : ℚ} : finite a ≤ finite b ↔ a ≤ b := by
  simp [finite]

theorem finite_lt_finite {a b : ℚ} : finite a < finite b ↔ a < b := by
  simp [finite]

theorem finite_injective {a b : ℚ} : finite a = finite b ↔ a = b := by
  simp [finite]

theorem finite_zero : finite 0 = 0 := rfl

theorem finite_mono : Monotone finite := fun _ _ h => finite_le_finite.2 h

theorem roundF32_finite {q : ℚ} (h : |f32RoundQ q| < 2 ^ 128) :
    roundF32 (finite q) = finite (f32RoundQ q) := by
  have h' := abs_lt.1 h
  show (if (2 : ℚ) ^ 128 ≤ f32RoundQ q then (⊤ : XRat)
    else if f32RoundQ q ≤ -(2 : ℚ) ^ 128 then ⊥ else finite (f32RoundQ q)) = _
  rw [if_neg (by linarith [h'.2]), if_neg (by linarith [h'.1])]

theorem roundF32_zero : roundF32 0 = 0 := by
  have := roundF32_finite (q := 0) (by rw [f32RoundQ_zero]; norm_num)
  rw [f32RoundQ_zero] at this
  exact this

theorem roundF32_mono : Monotone roundF32 := by
  intro x y h
  rcases x with _ | _ | x
  · exact bot_le
  · rcases y with _ | _ | y
    · exact absurd h (by decide)
    · exact le_refl _
    · exfalso
      have : (⊤ : XRat) ≤ finite y := h
      simp [finite] at this
  · rcases y with _ | _ | y
    · exfalso
      have : finite x ≤ (⊥ : XRat) := h
      simp [finite] at this
    · exact le_top
    · have hxy : x ≤ y := finite_le_finite.1 h
      have hr := f32RoundQ_mono hxy
      show (if (2 : ℚ) ^ 128 ≤ f32RoundQ x then (⊤ : XRat)
          else if f32RoundQ x ≤ -(2 : ℚ) ^ 128 then ⊥ else finite (f32RoundQ x)) ≤
        (if (2 : ℚ) ^ 128 ≤ f32RoundQ y then (⊤ : XRat)
          else if f32RoundQ y ≤ -(2 : ℚ) ^ 128 then ⊥ else finite (f32RoundQ y))
      split_ifs <;> first
        | exact le_top
        | exact bot_le
        | exact le_refl _
        | exact finite_le_finite.2 hr
        | (exfalso; linarith)

theorem f32RoundQ_abs_le_two_pow (q : ℚ) (j : ℕ) (h : |q| ≤ 2 ^ j) : |f32RoundQ q| ≤ 2 ^ j := by
  have h' := abs_le.1 h
  rw [abs_le]
  constructor
  · have := f32RoundQ_mono h'.1
    rw [f32RoundQ_neg, f32RoundQ_two_pow] at this
    exact this
  · have := f32RoundQ_mono h'.2
    rw [f32RoundQ_two_pow] at this
    exact this

/-! ## Zero-seeded extrema -/

theorem foldl_min_le {α : Type} [LinearOrder α] (l : List α) (a : α) :
    l.foldl min a ≤ a := by
  induction l generalizing a with
  | nil => simp
  | cons x l ih => exact le_trans (ih _) (min_le_left _ _)

theorem le_foldl_max {α : Type} [LinearOrder α] (l : List α) (a : α) :
    a ≤ l.foldl max a := by
  induction l generalizing a with
  | nil => simp
  | cons x l ih => exact le_trans (le_max_left _ _) (ih _)

theorem foldl_min_le_of_mem {α : Type} [LinearOrder α] (l : List α) (a v : α) (h : v ∈ l) :
    l.foldl min a ≤ v := by
  induction l generalizing a with
  | nil => cases h
  | cons x l ih =>
    rw [List.foldl_cons]
    rcases List.mem_cons.1 h with rfl | h'
    · exact le_trans (foldl_min_le l _) (min_le_right _ _)
    · exact ih _ h'

theorem le_foldl_max_of_mem {α : Type} [LinearOrder α] (l : List α) (a v : α) (h : v ∈ l) :
    v ≤ l.foldl max a := by
  induction l generalizing a with
  | nil => cases h
  | cons x l ih =>
    rw [List.foldl_cons]
    rcases List.mem_cons.1 h with rfl | h'
    · exact le_trans (le_max_right _ _) (le_foldl_max l _)
    · exact ih _ h'

theorem foldl_min_mem {α : Type} [LinearOrder α] (l : List α) (a : α) :
    l.foldl min a = a ∨ l.foldl min a ∈ l := by
  induction l generalizing a with
  | nil => simp
  | cons x l ih =>
    rw [List.foldl_cons]
    rcases ih (min a x) with h | h
    · rw [h]
      rcases min_choice a x with h' | h'
      · exact Or.inl h'
      · exact Or.inr (by rw [h']; exact List.mem_cons_self _ _)
    · exact Or.inr (List.mem_cons_of_mem _ h)

theorem foldl_max_mem {α : Type} [LinearOrder α] (l : List α) (a : α) :
    l.foldl max a = a ∨ l.foldl max a ∈ l := by
  induction l generalizing a with
  | nil => simp
  | cons x l ih =>
    rw [List.foldl_cons]
    rcases ih (max a x) with h | h
    · rw [h]
      rcases max_choice a x with h' | h'
      · exact Or.inl h'
      · exact Or.inr (by rw [h']; exact List.mem_cons_self _ _)
    · exact Or.inr (List.mem_cons_of_mem _ h)

theorem foldl_min_min {α : Type} [LinearOrder α] (l : List α) (a b : α) :
    l.foldl min (min a b) = min a (l.foldl min b) := by
  induction l generalizing b with
  | nil => simp
  | cons x l ih => simp only [List.foldl_cons]; rw [min_assoc, ih]

theorem foldl_max_max {α : Type} [LinearOrder α] (l : List α) (a b : α) :
    l.foldl max (max a b) = max a (l.foldl max b) := by
  induction l generalizing b with
  | nil => simp
  | cons x l ih => simp only [List.foldl_cons]; rw [max_assoc, ih]

theorem peakMin_le_zero {α : Type} [LinearOrder α] [Zero α] (l : List α) : peakMin l ≤ 0 :=
  foldl_min_le l 0

theorem zero_le_peakMax {α : Type} [LinearOrder α] [Zero α] (l : List α) : 0 ≤ peakMax l :=
  le_foldl_max l 0

/-- `peakMin l` is the least element of `0 :: l`. -/
theorem peakMin_least {α : Type} [LinearOrder α] [Zero α] (l : List α) :
    peakMin l ∈ 0 :: l ∧ ∀ v ∈ 0 :: l, peakMin l ≤ v := by
  refine ⟨?_, ?_⟩
  · rcases foldl_min_mem l 0 with h | h
    · exact List.mem_cons.2 (Or.inl h)
    · exact List.mem_cons.2 (Or.inr h)
  · intro v hv
    rcases List.mem_cons.1 hv with rfl | h
    · exact peakMin_le_zero l
    · exact foldl_min_le_of_mem l 0 v h

/-- `peakMax l` is the greatest element of `0 :: l`. -/
theorem peakMax_greatest {α : Type} [LinearOrder α] [Zero α] (l : List α) :
    peakMax l ∈ 0 :: l ∧ ∀ v ∈ 0 :: l, v ≤ peakMax l := by
  refine ⟨?_, ?_⟩
  · rcases foldl_max_mem l 0 with h | h
    · exact List.mem_cons.2 (Or.inl h)
    · exact List.mem_cons.2 (Or.inr h)
  · intro v hv
    rcases List.mem_cons.1 hv with rfl | h
    · exact zero_le_peakMax l
    · exact le_foldl_max_of_mem l 0 v h

theorem peakMin_mem_range {α : Type} [LinearOrder α] [Zero α] (l : List α) (lo hi : α)
    (hlo : lo ≤ 0) (hhi : 0 ≤ hi) (h : ∀ v ∈ l, lo ≤ v ∧ v ≤ hi) :
    lo ≤ peakMin l ∧ peakMin l ≤ hi := by
  rcases List.mem_cons.1 (peakMin_least l).1 with h0 | hm
  · rw [h0]; exact ⟨hlo, hhi⟩
  · exact h _ hm

theorem peakMax_mem_range {α : Type} [LinearOrder α] [Zero α] (l : List α) (lo hi : α)
    (hlo : lo ≤ 0) (hhi : 0 ≤ hi) (h : ∀ v ∈ l, lo ≤ v ∧ v ≤ hi) :
    lo ≤ peakMax l ∧ peakMax l ≤ hi := by
  rcases List.mem_cons.1 (peakMax_greatest l).1 with h0 | hm
  · rw [h0]; exact ⟨hlo, hhi⟩
  · exact h _ hm

theorem peakMin_append {α : Type} [LinearOrder α] [Zero α] (a b : List α) :
    peakMin (a ++ b) = min (peakMin a) (peakMin b) := by
  unfold peakMin
  rw [List.foldl_append, ← foldl_min_min, min_eq_left (foldl_min_le a 0)]

theorem peakMax_append {α : Type} [LinearOrder α] [Zero α] (a b : List α) :
    peakMax (a ++ b) = max (peakMax a) (peakMax b) := by
  unfold peakMax
  rw [List.foldl_append, ← foldl_max_max, max_eq_left (le_foldl_max a 0)]

theorem foldl_min_map {α β : Type} [LinearOrder α] [LinearOrder β] (f : α → β)
    (hf : Monotone f) (l : List α) (a : α) :
    (l.map f).foldl min (f a) = f (l.foldl min a) := by
  induction l generalizing a with
  | nil => simp
  | cons x l ih => simp only [List.map_cons, List.foldl_cons]; rw [← hf.map_min, ih]

theorem foldl_max_map {α β : Type} [LinearOrder α] [LinearOrder β] (f : α → β)
    (hf : Monotone f) (l : List α) (a : α) :
    (l.map f).foldl max (f a) = f (l.foldl max a) := by
  induction l generalizing a with
  | nil => simp
  | cons x l ih => simp only [List.map_cons, List.foldl_cons]; rw [← hf.map_max, ih]

theorem updMin_eq_min {α : Type} [LinearOrder α] (a v : α) : updMin a v = min a v := by
  unfold updMin
  split_ifs with h
  · exact (min_eq_right (le_of_lt h)).symm
  · exact (min_eq_left (not_lt.1 h)).symm

theorem updMax_eq_max {α : Type} [LinearOrder α] (a v : α) : updMax a v = max a v := by
  unfold updMax
  split_ifs with h
  · exact (max_eq_right (le_of_lt h)).symm
  · exact (max_eq_left (not_lt.1 h)).symm

theorem foldl_updMin_int (l : List ℤ) : l.foldl updMin 0 = peakMin l := by
  unfold peakMin
  congr 1
  funext a v
  exact updMin_eq_min a v

theorem foldl_updMax_int (l : List ℤ) : l.foldl updMax 0 = peakMax l := by
  unfold peakMax
  congr 1
  funext a v
  exact updMax_eq_max a v

theorem FloatVal.num_lt_num {a b : XRat} : (FloatVal.num a < FloatVal.num b) ↔ a < b :=
  Iff.rfl

theorem FloatVal.not_nan_lt (b : FloatVal) : ¬ (FloatVal.nan < b) := fun h => h

theorem FloatVal.not_lt_nan (a : FloatVal) : ¬ (a < FloatVal.nan) := by
  cases a <;> exact fun h => h

theorem foldl_updMin_float (l : List FloatVal) (a : XRat) :
    l.foldl updMin (FloatVal.num a) = FloatVal.num ((numbers l).foldl min a) := by
  induction l generalizing a with
  | nil => simp [numbers]
  | cons v l ih =>
    cases v with
    | nan =>
      have : updMin (FloatVal.num a) FloatVal.nan = FloatVal.num a := by
        unfold updMin; rw [if_neg (FloatVal.not_nan_lt _)]
      simp only [List.foldl_cons, this, ih]
      simp [numbers, FloatVal.toX]
    | num x =>
      have : updMin (FloatVal.num a) (FloatVal.num x) = FloatVal.num (min a x) := by
        unfold updMin
        rw [← updMin_eq_min]
        unfold updMin
        split_ifs with h1 h2 h2
        · rfl
        · exact absurd (FloatVal.num_lt_num.1 h1) h2
        · exact absurd (FloatVal.num_lt_num.2 h2) h1
        · rfl
      simp only [List.foldl_cons, this, ih]
      simp [numbers, FloatVal.toX]

theorem foldl_updMax_float (l : List FloatVal) (a : XRat) :
    l.foldl updMax (FloatVal.num a) = FloatVal.num ((numbers l).foldl max a) := by
  induction l generalizing a with
  | nil => simp [numbers]
  | cons v l ih =>
    cases v with
    | nan =>
      have : updMax (FloatVal.num a) FloatVal.nan = FloatVal.num a := by
        unfold updMax; rw [if_neg (FloatVal.not_lt_nan _)]
      simp only [List.foldl_cons, this, ih]
      simp [numbers, FloatVal.toX]
    | num x =>
      have : updMax (FloatVal.num a) (FloatVal.num x) = FloatVal.num (max a x) := by
        unfold updMax
        rw [← updMax_eq_max]
        unfold updMax
        split_ifs with h1 h2 h2
        · rfl
        · exact absurd (FloatVal.num_lt_num.1 h1) h2
        · exact absurd (FloatVal.num_lt_num.2 h2) h1
        · rfl
      simp only [List.foldl_cons, this, ih]
      simp [numbers, FloatVal.toX]

/-! ## The four routines on blocks of whole frames -/

theorem toInt16_range (w : ℕ) : -2 ^ 15 ≤ toInt16 w ∧ toInt16 w < 2 ^ 15 := by
  unfold toInt16
  have := Nat.mod_lt w (by norm_num : 0 < 2 ^ 16)
  split_ifs <;> constructor <;> omega

theorem toInt32_range (w : ℕ) : -2 ^ 31 ≤ toInt32 w ∧ toInt32 w < 2 ^ 31 := by
  unfold toInt32
  have := Nat.mod_lt w (by norm_num : 0 < 2 ^ 32)
  split_ifs <;> constructor <;> omega

theorem samplesS16N_range (b : block_t) (C c : ℕ) :
    ∀ v ∈ samplesS16N b C c, -2 ^ 15 ≤ v ∧ v ≤ 2 ^ 15 := by
  intro v hv
  obtain ⟨w, _, rfl⟩ := List.mem_map.1 hv
  have := toInt16_range w
  constructor <;> omega

theorem samplesS32N_range (b : block_t) (C c : ℕ) :
    ∀ v ∈ samplesS32N b C c, -2 ^ 31 ≤ v ∧ v ≤ 2 ^ 31 := by
  intro v hv
  obtain ⟨w, _, rfl⟩ := List.mem_map.1 hv
  have := toInt32_range w
  constructor <;> omega

/-- The `float` image of an integer of magnitude at most `2^31` is finite. -/
theorem intToFloat_eq (n : ℤ) (h : |n| ≤ 2 ^ 31) :
    intToFloat n = .num (finite (f32RoundQ n)) := by
  unfold intToFloat
  rw [roundF32_finite]
  have hq : |(n : ℚ)| ≤ 2 ^ 31 := by exact_mod_cast h
  have := f32RoundQ_abs_le_two_pow (n : ℚ) 31 hq
  calc |f32RoundQ (n : ℚ)| ≤ 2 ^ 31 := this
    _ < 2 ^ 128 := by norm_num

/-- Scaling a 32-bit extremum: round to `float`, then divide exactly. -/
theorem scale_S32N (n : ℤ) (h : |n| ≤ 2 ^ 31) :
    divPow2 (intToFloat n) 31 = .num (finite (f32RoundQ n / 2 ^ 31)) := by
  rw [intToFloat_eq n h]
  show FloatVal.num (roundF32 (finite (f32RoundQ n / 2 ^ 31))) = _
  have hq : |(n : ℚ)| ≤ 2 ^ 31 := by exact_mod_cast h
  have hb := f32RoundQ_abs_le_two_pow (n : ℚ) 31 hq
  rw [roundF32_finite, f32RoundQ_int_div n 31 (by norm_num)]
  rw [f32RoundQ_int_div n 31 (by norm_num), abs_div, abs_of_pos (by positivity : (0 : ℚ) < 2 ^ 31)]
  calc |f32RoundQ (n : ℚ)| / 2 ^ 31 ≤ 2 ^ 31 / 2 ^ 31 :=
        div_le_div_of_nonneg_right hb (by positivity)
    _ < 2 ^ 128 := by norm_num

/-- Scaling a 16-bit extremum is exact. -/
theorem scale_S16N (n : ℤ) (h : |n| ≤ 2 ^ 15) :
    divPow2 (intToFloat n) 15 = .num (finite ((n : ℚ) / 2 ^ 15)) := by
  have h24 : |n| < 2 ^ 24 := lt_of_le_of_lt h (by norm_num)
  rw [intToFloat_eq n (le_trans h (by norm_num)), f32RoundQ_small n h24]
  show FloatVal.num (roundF32 (finite ((n : ℚ) / 2 ^ 15))) = _
  have hq : |(n : ℚ)| ≤ 2 ^ 15 := by exact_mod_cast h
  rw [roundF32_finite, f32RoundQ_small_div n 15 h24 (by norm_num)]
  rw [f32RoundQ_small_div n 15 h24 (by norm_num), abs_div,
    abs_of_pos (by positivity : (0 : ℚ) < 2 ^ 15)]
  calc |(n : ℚ)| / 2 ^ 15 ≤ 2 ^ 15 / 2 ^ 15 :=
        div_le_div_of_nonneg_right hq (by positivity)
    _ < 2 ^ 128 := by norm_num

theorem GetPeaksFL32_ok (b : block_t) (C : ℕ) (f_min f_max : ℕ → FloatVal)
    (h : b.i_nb_samples * C ≤ b.p_buffer.length) :
    GetPeaksFL32 b C f_min f_max = .ok
      (fun c => if c < C then .num (peakMin (samplesFL32 b C c)) else f_min c,
       fun c => if c < C then .num (peakMax (samplesFL32 b C c)) else f_max c) := by
  rw [GetPeaksFL32_scan, storeLoop_spec, scanFrames_channel _ _ _ _ _ _ h]
  simp only
  congr 1
  refine Prod.ext ?_ ?_ <;> funext c <;> by_cases hc : c < C
  · simp only [hc, if_true]
    exact foldl_updMin_float _ 0
  · simp [hc]
  · simp only [hc, if_true]
    exact foldl_updMax_float _ 0
  · simp [hc]

theorem GetPeaksFL64_ok (M : ℕ) (b : block_t) (C : ℕ) (f_min f_max : ℕ → FloatVal)
    (hC : C ≤ M) (h : b.i_nb_samples * C ≤ b.p_buffer.length) :
    GetPeaksFL64 M b C f_min f_max = .ok
      (fun c => if c < C then .num (roundF32 (peakMin (samplesFL64 b C c))) else f_min c,
       fun c => if c < C then .num (roundF32 (peakMax (samplesFL64 b C c))) else f_max c) := by
  rw [GetPeaksFL64_scan, if_neg (not_not.2 hC), scanFrames_channel _ _ _ _ _ _ h]
  simp only
  rw [storeLoop_spec]
  congr 1
  refine Prod.ext ?_ ?_ <;> funext c <;> by_cases hc : c < C
  · simp only [hc, if_true]
    have := foldl_updMin_float
      ((channelWords b.p_buffer C b.i_nb_samples c).map decodeF64) 0
    rw [show (0 : FloatVal) = FloatVal.num 0 from rfl, this]
    rfl
  · simp [hc]
  · simp only [hc, if_true]
    have := foldl_updMax_float
      ((channelWords b.p_buffer C b.i_nb_samples c).map decodeF64) 0
    rw [show (0 : FloatVal) = FloatVal.num 0 from rfl, this]
    rfl
  · simp [hc]

theorem GetPeaksS16N_ok (M : ℕ) (b : block_t) (C : ℕ) (f_min f_max : ℕ → FloatVal)
    (hC : C ≤ M) (h : b.i_nb_samples * C ≤ b.p_buffer.length) :
    GetPeaksS16N M b C f_min f_max = .ok
      (fun c => if c < C then .num (finite (((peakMin (samplesS16N b C c) : ℤ) : ℚ) / 2 ^ 15))
        else f_min c,
       fun c => if c < C then .num (finite (((peakMax (samplesS16N b C c) : ℤ) : ℚ) / 2 ^ 15))
        else f_max c) := by
  rw [GetPeaksS16N_scan, if_neg (not_not.2 hC), scanFrames_channel _ _ _ _ _ _ h]
  simp only
  rw [storeLoop_spec]
  congr 1
  refine Prod.ext ?_ ?_ <;> funext c <;> by_cases hc : c < C
  · simp only [hc, if_true]
    rw [foldl_updMin_int]
    have := peakMin_mem_range _ _ _ (by norm_num) (by norm_num) (samplesS16N_range b C c)
    exact scale_S16N _ (abs_le.2 this)
  · simp [hc]
  · simp only [hc, if_true]
    rw [foldl_updMax_int]
    have := peakMax_mem_range _ _ _ (by norm_num) (by norm_num) (samplesS16N_range b C c)
    exact scale_S16N _ (abs_le.2 this)
  · simp [hc]

theorem GetPeaksS32N_ok (M : ℕ) (b : block_t) (C : ℕ) (f_min f_max : ℕ → FloatVal)
    (hC : C ≤ M) (h : b.i_nb_samples * C ≤ b.p_buffer.length) :
    GetPeaksS32N M b C f_min f_max = .ok
      (fun c => if c < C then
          .num (finite (f32RoundQ ((peakMin (samplesS32N b C c) : ℤ) : ℚ) / 2 ^ 31))
        else f_min c,
       fun c => if c < C then
          .num (finite (f32RoundQ ((peakMax (samplesS32N b C c) : ℤ) : ℚ) / 2 ^ 31))
        else f_max c) := by
  rw [GetPeaksS32N_scan, if_neg (not_not.2 hC), scanFrames_channel _ _ _ _ _ _ h]
  simp only
  rw [storeLoop_spec]
  congr 1
  refine Prod.ext ?_ ?_ <;> funext c <;> by_cases hc : c < C
  · simp only [hc, if_true]
    rw [foldl_updMin_int]
    have := peakMin_mem_range _ _ _ (by norm_num) (by norm_num) (samplesS32N_range b C c)
    exact scale_S32N _ (abs_le.2 this)
  · simp [hc]
  · simp only [hc, if_true]
    rw [foldl_updMax_int]
    have := peakMax_mem_range _ _ _ (by norm_num) (by norm_num) (samplesS32N_range b C c)
    exact scale_S32N _ (abs_le.2 this)
  · simp [hc]

/-! ## Evaluation at concrete inputs -/

theorem f32RoundQ_eval (q : ℚ) (L : ℤ) (h1 : (2 : ℚ) ^ L ≤ |q|) (h2 : |q| < (2 : ℚ) ^ (L + 1))
    (hL : -126 ≤ L) : f32RoundQ q = (rne (q / 2 ^ (L - 23)) : ℚ) * 2 ^ (L - 23) := by
  have : f32Expo q = L - 23 := by
    unfold f32Expo
    rw [log_eq_of_binade h1 h2, max_eq_left hL]
  unfold f32RoundQ
  rw [this]

theorem FloatVal.num_le_num {a b : XRat} : (FloatVal.num a ≤ FloatVal.num b) ↔ a ≤ b :=
  Iff.rfl

theorem FloatVal.zero_eq : (0 : FloatVal) = FloatVal.num 0 := rfl

theorem wholeFrames_le {b : block_t} {C : ℕ} (h : b.wholeFrames C) :
    b.i_nb_samples * C ≤ b.p_buffer.length := le_of_eq h.symm

theorem decodeF32_half : decodeF32 0x3F000000 = .num (finite (1 / 2)) := by
  norm_num [decodeF32]

theorem decodeF32_one : decodeF32 0x3F800000 = .num (finite 1) := by
  norm_num [decodeF32]

theorem decodeF32_neg_one : decodeF32 0xBF800000 = .num (finite (-1)) := by
  norm_num [decodeF32]

theorem decodeF32_two : decodeF32 0x40000000 = .num (finite 2) := by
  norm_num [decodeF32]

theorem decodeF32_neg_three_tenths :
    decodeF32 0xBE99999A = .num (finite (-5033165 / 16777216)) := by
  norm_num [decodeF32]

theorem f32RoundQ_neg_three_tenths : f32RoundQ (-3 / 10) = -5033165 / 16777216 := by
  rw [f32RoundQ_eval _ (-2) (by norm_num [abs_of_neg]) (by norm_num [abs_of_neg]) (by norm_num)]
  norm_num [rne]

theorem f32RoundQ_two_pow_24_succ : f32RoundQ 16777217 = 16777216 := by
  rw [f32RoundQ_eval _ 24 (by norm_num) (by norm_num) (by norm_num)]
  norm_num [rne]

theorem f32RoundQ_int32_max : f32RoundQ 2147483647 = 2147483648 := by
  rw [f32RoundQ_eval _ 30 (by norm_num) (by norm_num) (by norm_num)]
  norm_num [rne]

theorem peakMin_map_finite (l : List ℚ) : peakMin (l.map finite) = finite (peakMin l) := by
  unfold peakMin
  rw [← finite_zero, foldl_min_map finite finite_mono]

theorem peakMax_map_finite (l : List ℚ) : peakMax (l.map finite) = finite (peakMax l) := by
  unfold peakMax
  rw [← finite_zero, foldl_max_map finite finite_mono]

/-! ## Blocks that agree on a channel, and concatenated blocks -/

theorem channelWords_congr (b₁ b₂ : List ℕ) (C n c : ℕ)
    (h : ∀ i < n, b₁[i * C + c]? = b₂[i * C + c]?) :
    channelWords b₁ C n c = channelWords b₂ C n c := by
  unfold channelWords
  apply List.filterMap_congr
  intro i hi
  exact h i (List.mem_range.1 hi)

theorem channelWords_append (a b : List ℕ) (C na nb c : ℕ) (hc : c < C)
    (ha : a.length = na * C) :
    channelWords (a ++ b) C (na + nb) c = channelWords a C na c ++ channelWords b C nb c := by
  unfold channelWords
  rw [List.range_add, List.filterMap_append, List.filterMap_map]
  congr 1
  · apply List.filterMap_congr
    intro i hi
    have hi' := List.mem_range.1 hi
    have : i * C + c < a.length := by
      rw [ha]
      have : (i + 1) * C ≤ na * C := Nat.mul_le_mul_right _ hi'
      rw [Nat.succ_mul] at this
      omega
    exact List.getElem?_append_left this
  · apply List.filterMap_congr
    intro j _
    have hle : a.length ≤ (na + j) * C + c := by
      rw [ha, Nat.add_mul]; omega
    simp only [Function.comp]
    rw [List.getElem?_append_right hle]
    congr 1
    rw [ha, Nat.add_mul]; omega

theorem numbers_append (x y : List FloatVal) : numbers (x ++ y) = numbers x ++ numbers y := by
  simp [numbers, List.filterMap_append]

theorem samples_of_empty (b : block_t) (C c : ℕ) (h : b.i_nb_samples = 0) :
    samplesFL32 b C c = [] ∧ samplesFL64 b C c = [] ∧
      samplesS16N b C c = [] ∧ samplesS32N b C c = [] := by
  simp [samplesFL32, samplesFL64, samplesS16N, samplesS32N, channelWords, numbers, h]

theorem f32RoundQ_intCast_mono : Monotone (fun n : ℤ => f32RoundQ (n : ℚ) / 2 ^ 31) := by
  intro x y h
  have : (x : ℚ) ≤ (y : ℚ) := by exact_mod_cast h
  exact div_le_div_of_nonneg_right (f32RoundQ_mono this) (by positivity)

theorem intCast_div_mono : Monotone (fun n : ℤ => (n : ℚ) / 2 ^ 15) := by
  intro x y h
  have : (x : ℚ) ≤ (y : ℚ) := by exact_mod_cast h
  exact div_le_div_of_nonneg_right this (by positivity)

theorem samples_congr (b₁ b₂ : block_t) (C c : ℕ) (hN : b₁.i_nb_samples = b₂.i_nb_samples)
    (h : ∀ i < b₁.i_nb_samples, b₁.p_buffer[i * C + c]? = b₂.p_buffer[i * C + c]?) :
    samplesFL32 b₁ C c = samplesFL32 b₂ C c ∧ samplesFL64 b₁ C c = samplesFL64 b₂ C c ∧
      samplesS16N b₁ C c = samplesS16N b₂ C c ∧ samplesS32N b₁ C c = samplesS32N b₂ C c := by
  have := channelWords_congr b₁.p_buffer b₂.p_buffer C b₁.i_nb_samples c h
  simp only [samplesFL32, samplesFL64, samplesS16N, samplesS32N, ← hN, this, and_self]

theorem samples_append (A B : block_t) (C c : ℕ) (hc : c < C) (hA : A.wholeFrames C) :
    samplesFL32 (A.append B) C c = samplesFL32 A C c ++ samplesFL32 B C c ∧
    samplesFL64 (A.append B) C c = samplesFL64 A C c ++ samplesFL64 B C c ∧
    samplesS16N (A.append B) C c = samplesS16N A C c ++ samplesS16N B C c ∧
    samplesS32N (A.append B) C c = samplesS32N A C c ++ samplesS32N B C c := by
  have := channelWords_append A.p_buffer B.p_buffer C A.i_nb_samples B.i_nb_samples c hc hA
  simp only [samplesFL32, samplesFL64, samplesS16N, samplesS32N, block_t.append, this,
    List.map_append, numbers_append, and_self]

theorem wholeFrames_append {A B : block_t} {C : ℕ} (hA : A.wholeFrames C)
    (hB : B.wholeFrames C) : (A.append B).wholeFrames C := by
  unfold block_t.wholeFrames at *
  simp only [block_t.append, List.length_append, hA, hB, Nat.add_mul]

theorem toInt16_of_int (v : ℤ) (h₁ : -2 ^ 15 ≤ v) (h₂ : v < 2 ^ 15) :
    toInt16 (v % 2 ^ 16).toNat = v := by
  unfold toInt16
  have e : ((v % 2 ^ 16).toNat : ℤ) = v % 2 ^ 16 :=
    Int.toNat_of_nonneg (Int.emod_nonneg v (by norm_num))
  have hlt : (v % 2 ^ 16).toNat < 2 ^ 16 := by
    have := Int.emod_lt_of_pos v (by norm_num : (0 : ℤ) < 2 ^ 16)
    omega
  rw [Nat.mod_eq_of_lt hlt]
  split_ifs with h <;> omega

theorem samples_single (w : ℕ) (pts : ℤ) :
    samplesS16N ⟨[w], 1, pts⟩ 1 0 = [toInt16 w] ∧ samplesS32N ⟨[w], 1, pts⟩ 1 0 = [toInt32 w] ∧
    samplesFL32 ⟨[w], 1, pts⟩ 1 0 = numbers [decodeF32 w] ∧
    samplesFL64 ⟨[w], 1, pts⟩ 1 0 = numbers [decodeF64 w] := by
  have : channelWords [w] 1 1 0 = [w] := by simp [channelWords, List.range_succ]
  simp [samplesS16N, samplesS32N, samplesFL32, samplesFL64, this]

theorem roundF32_one : roundF32 (finite 1) = finite 1 := by
  have h : f32RoundQ 1 = 1 := by simpa using f32RoundQ_two_pow 0
  rw [roundF32_finite (by rw [h]; norm_num), h]

theorem roundF32_neg_one : roundF32 (finite (-1)) = finite (-1) := by
  have h : f32RoundQ (-1) = -1 := by
    rw [f32RoundQ_neg]; simpa using f32RoundQ_two_pow 0
  rw [roundF32_finite (by rw [h]; norm_num), h]

theorem finite_neg_one_le_zero : finite (-1) ≤ 0 := by
  rw [← finite_zero, finite_le_finite]; norm_num

theorem zero_le_finite_one : (0 : XRat) ≤ finite 1 := by
  rw [← finite_zero, finite_le_finite]; norm_num

theorem s16n_scaled_range (n : ℤ) (h : -2 ^ 15 ≤ n ∧ n ≤ 2 ^ 15) :
    inUnitRange (.num (finite ((n : ℚ) / 2 ^ 15))) := by
  have h1 : ((-2 ^ 15 : ℤ) : ℚ) ≤ (n : ℚ) := by exact_mod_cast h.1
  have h2 : (n : ℚ) ≤ ((2 ^ 15 : ℤ) : ℚ) := by exact_mod_cast h.2
  push_cast at h1 h2
  constructor
  · apply FloatVal.num_le_num.2
    rw [finite_le_finite, le_div_iff₀ (by positivity)]
    linarith
  · apply FloatVal.num_le_num.2
    rw [finite_le_finite, div_le_iff₀ (by positivity)]
    linarith

theorem s32n_scaled_range (n : ℤ) (h : -2 ^ 31 ≤ n ∧ n ≤ 2 ^ 31) :
    inUnitRange (.num (finite (f32RoundQ (n : ℚ) / 2 ^ 31))) := by
  have hq : |(n : ℚ)| ≤ 2 ^ 31 := by
    have : |n| ≤ 2 ^ 31 := abs_le.2 h
    exact_mod_cast this
  have hb := abs_le.1 (f32RoundQ_abs_le_two_pow (n : ℚ) 31 hq)
  constructor
  · apply FloatVal.num_le_num.2
    rw [finite_le_finite, le_div_iff₀ (by positivity)]
    linarith [hb.1]
  · apply FloatVal.num_le_num.2
    rw [finite_le_finite, div_le_iff₀ (by positivity)]
    linarith [hb.2]

theorem PeakRoutine.call_ok (M : ℕ) (R : PeakRoutine) (b : block_t) (C : ℕ)
    (f_min f_max : ℕ → FloatVal) (hM : C ≤ M) (hb : b.wholeFrames C) :
    ∃ r, R.call M b C f_min f_max = .ok r := by
  have hl := wholeFrames_le hb
  cases R
  · exact ⟨_, GetPeaksFL32_ok b C f_min f_max hl⟩
  · exact ⟨_, GetPeaksFL64_ok M b C f_min f_max hM hl⟩
  · exact ⟨_, GetPeaksS16N_ok M b C f_min f_max hM hl⟩
  · exact ⟨_, GetPeaksS32N_ok M b C f_min f_max hM hl⟩

/-- Dividing an integer by `2^j` and rounding to `float` is rounding the
integer to `float` and dividing: the scaling loses nothing. -/
theorem f32RoundQ_div_two_pow (n : ℤ) (j : ℕ) (hj : j ≤ 126) :
    f32RoundQ ((n : ℚ) / 2 ^ j) = f32RoundQ (n : ℚ) / 2 ^ j := by
  by_cases h0 : n = 0
  · subst h0; simp [f32RoundQ_zero]
  · have h1 : (1 : ℚ) ≤ |(n : ℚ)| := by
      have : (1 : ℤ) ≤ |n| := Int.one_le_abs h0
      exact_mod_cast this
    have hpos : (0 : ℚ) < |(n : ℚ)| := lt_of_lt_of_le one_pos h1
    have hL0 : 0 ≤ Int.log 2 |(n : ℚ)| :=
      (Int.zpow_le_iff_le_log (b := 2) (x := 0) (by norm_num) hpos).1 (by simpa using h1)
    have a1 : (2 : ℚ) ^ Int.log 2 |(n : ℚ)| ≤ |(n : ℚ)| := zpow_log_le hpos
    have a2 : |(n : ℚ)| < (2 : ℚ) ^ (Int.log 2 |(n : ℚ)| + 1) := lt_zpow_log_succ
    generalize Int.log 2 |(n : ℚ)| = L at hL0 a1 a2
    have hj0 : (0 : ℚ) < 2 ^ j := by positivity
    have habs : |(n : ℚ) / 2 ^ j| = |(n : ℚ)| / 2 ^ j := by
      rw [abs_div, abs_of_pos hj0]
    have b1 : (2 : ℚ) ^ (L - (j : ℤ)) ≤ |(n : ℚ) / 2 ^ j| := by
      rw [habs, zpow_sub₀ (by norm_num : (2 : ℚ) ≠ 0), zpow_natCast]
      exact div_le_div_of_nonneg_right a1 (le_of_lt hj0)
    have b2 : |(n : ℚ) / 2 ^ j| < (2 : ℚ) ^ (L - (j : ℤ) + 1) := by
      rw [habs, show L - (j : ℤ) + 1 = L + 1 - (j : ℤ) by ring,
        zpow_sub₀ (by norm_num : (2 : ℚ) ≠ 0), zpow_natCast]
      exact div_lt_div_of_pos_right a2 hj0
    rw [f32RoundQ_eval _ L a1 a2 (by omega), f32RoundQ_eval _ (L - (j : ℤ)) b1 b2 (by omega)]
    have k : (2 : ℚ) ^ (L - (j : ℤ) - 23) = 2 ^ (L - 23) / 2 ^ j := by
      rw [show L - (j : ℤ) - 23 = L - 23 - (j : ℤ) by ring,
        zpow_sub₀ (by norm_num : (2 : ℚ) ≠ 0), zpow_natCast]
    have h2 : (2 : ℚ) ^ (L - 23) ≠ 0 := by positivity
    have q : (n : ℚ) / 2 ^ j / (2 ^ (L - 23) / 2 ^ j) = (n : ℚ) / 2 ^ (L - 23) := by
      field_simp
    rw [k, q]
    ring

/-- The `float` S32N stores is the `float` nearest to the exact quotient of
the 32-bit extremum by `2^31`. -/
theorem nearest_float_of_quotient (n : ℤ) (h : |n| ≤ 2 ^ 31) :
    roundF32 (finite ((n : ℚ) / 2 ^ 31)) = finite (f32RoundQ (n : ℚ) / 2 ^ 31) := by
  have hq : |(n : ℚ)| ≤ 2 ^ 31 := by exact_mod_cast h
  have hb := f32RoundQ_abs_le_two_pow (n : ℚ) 31 hq
  have e := f32RoundQ_div_two_pow n 31 (by norm_num)
  rw [roundF32_finite, e]
  rw [e, abs_div, abs_of_pos (by positivity : (0 : ℚ) < 2 ^ 31)]
  calc |f32RoundQ (n : ℚ)| / 2 ^ 31 ≤ 2 ^ 31 / 2 ^ 31 :=
        div_le_div_of_nonneg_right hb (by positivity)
    _ < 2 ^ 128 := by norm_num

/-- A list without NaN keeps all its entries in `numbers`. -/
theorem numbers_of_no_nan (l : List FloatVal) (h : ∀ v ∈ l, v ≠ FloatVal.nan) :
    (numbers l).map FloatVal.num = l := by
  induction l with
  | nil => rfl
  | cons v l ih =>
    have hl := ih (fun w hw => h w (List.mem_cons_of_mem _ hw))
    cases v with
    | nan => exact absurd rfl (h _ (List.mem_cons_self _ _))
    | num x =>
      have : numbers (FloatVal.num x :: l) = x :: numbers l := by
        simp [numbers, FloatVal.toX]
      rw [this, List.map_cons, hl]

/-! ## The claims -/

/-- C1: on a block of `N` whole interleaved frames, with
`i_channels <= INPUT_CHAN_MAX`, every routine returns for each channel
`c < i_channels` the `float` values `min[c] = norm(min(0, samples of c))` and
`max[c] = norm(max(0, samples of c))`, the samples of `c` being those at
positions `i * i_channels + c`.  `norm` does not scale the two float formats:
an FL32 extremum is stored as it is and an FL64 extremum as the `float`
nearest to it.  `norm` divides by `2^15` for S16N, where the quotient is a
`float`, and by `2^31` for S32N, where the `float` nearest to the quotient is
stored.  (A NaN sample compares false and takes no part in an extremum.) -/
theorem peaks_eq_normalised_extrema (M : ℕ) (b : block_t) (C c : ℕ)
    (f_min f_max : ℕ → FloatVal) (hM : C ≤ M) (hb : b.wholeFrames C) (hc : c < C) :
    (∃ r, GetPeaksFL32 b C f_min f_max = .ok r ∧
      r.1 c = .num (peakMin (samplesFL32 b C c)) ∧
      r.2 c = .num (peakMax (samplesFL32 b C c))) ∧
    (∃ r, GetPeaksFL64 M b C f_min f_max = .ok r ∧
      r.1 c = .num (roundF32 (peakMin (samplesFL64 b C c))) ∧
      r.2 c = .num (roundF32 (peakMax (samplesFL64 b C c)))) ∧
    (∃ r, GetPeaksS16N M b C f_min f_max = .ok r ∧
      r.1 c = .num (finite (((peakMin (samplesS16N b C c) : ℤ) : ℚ) / 2 ^ 15)) ∧
      r.2 c = .num (finite (((peakMax (samplesS16N b C c) : ℤ) : ℚ) / 2 ^ 15))) ∧
    (∃ r, GetPeaksS32N M b C f_min f_max = .ok r ∧
      r.1 c = .num (roundF32 (finite (((peakMin (samplesS32N b C c) : ℤ) : ℚ) / 2 ^ 31))) ∧
      r.2 c = .num (roundF32 (finite (((peakMax (samplesS32N b C c) : ℤ) : ℚ) / 2 ^ 31)))) := by
  have hl := wholeFrames_le hb
  have hmin := peakMin_mem_range _ _ _ (by norm_num) (by norm_num) (samplesS32N_range b C c)
  have hmax := peakMax_mem_range _ _ _ (by norm_num) (by norm_num) (samplesS32N_range b C c)
  refine ⟨⟨_, GetPeaksFL32_ok b C f_min f_max hl, ?_, ?_⟩,
    ⟨_, GetPeaksFL64_ok M b C f_min f_max hM hl, ?_, ?_⟩,
    ⟨_, GetPeaksS16N_ok M b C f_min f_max hM hl, ?_, ?_⟩,
    ⟨_, GetPeaksS32N_ok M b C f_min f_max hM hl, ?_, ?_⟩⟩
  · simp [hc]
  · simp [hc]
  · simp [hc]
  · simp [hc]
  · simp [hc]
  · simp [hc]
  · simp only [hc, if_true]
    rw [nearest_float_of_quotient _ (abs_le.2 hmin)]
  · simp only [hc, if_true]
    rw [nearest_float_of_quotient _ (abs_le.2 hmax)]

/-- C1, the sentence's own example: the one-channel `float` buffer
`[0.5, -0.3]` gives `max[0] = 0.5` and `min[0] =` the `float` nearest `-0.3`. -/
theorem peaks_eq_normalised_extrema_witness :
    (1 ≤ 64 ∧ block_t.wholeFrames ⟨[0x3F000000, 0xBE99999A], 2, 0⟩ 1 ∧ 0 < 1) ∧
    (∃ r, GetPeaksFL32 ⟨[0x3F000000, 0xBE99999A], 2, 0⟩ 1 (fun _ => 0) (fun _ => 0) = .ok r ∧
      r.1 0 = .num (finite (f32RoundQ (-3 / 10))) ∧ r.2 0 = .num (finite (1 / 2))) := by
  refine ⟨⟨by decide, by decide, by decide⟩, ?_⟩
  obtain ⟨r, hr, h1, h2⟩ := (peaks_eq_normalised_extrema 64 ⟨[0x3F000000, 0xBE99999A], 2, 0⟩ 1 0
    (fun _ => 0) (fun _ => 0) (by decide) (by decide) (by decide)).1
  have hs : samplesFL32 ⟨[0x3F000000, 0xBE99999A], 2, 0⟩ 1 0 =
      [finite (1 / 2), finite (-5033165 / 16777216)] := by
    have : channelWords [0x3F000000, 0xBE99999A] 1 2 0 = [0x3F000000, 0xBE99999A] := by decide
    simp only [samplesFL32, this, List.map_cons, List.map_nil, decodeF32_half,
      decodeF32_neg_three_tenths]
    simp [numbers, FloatVal.toX]
  have hl : [finite (1 / 2), finite (-5033165 / 16777216)] =
      List.map finite [1 / 2, -5033165 / 16777216] := rfl
  refine ⟨r, hr, ?_, ?_⟩
  · rw [h1, hs, f32RoundQ_neg_three_tenths, hl, peakMin_map_finite]
    norm_num [peakMin]
  · rw [h2, hs, hl, peakMax_map_finite]
    norm_num [peakMax]

/-- C2: zero-floor invariant.  On a block of whole frames (empty or not,
whatever the signs of its samples) every routine returns `min[c] <= 0.0` and
`max[c] >= 0.0` for each channel `c < i_channels`. -/
theorem peaks_zero_floor (M : ℕ) (b : block_t) (C c : ℕ) (f_min f_max : ℕ → FloatVal)
    (hM : C ≤ M) (hb : b.wholeFrames C) (hc : c < C) :
    (∃ r, GetPeaksFL32 b C f_min f_max = .ok r ∧ r.1 c ≤ 0 ∧ 0 ≤ r.2 c) ∧
    (∃ r, GetPeaksFL64 M b C f_min f_max = .ok r ∧ r.1 c ≤ 0 ∧ 0 ≤ r.2 c) ∧
    (∃ r, GetPeaksS16N M b C f_min f_max = .ok r ∧ r.1 c ≤ 0 ∧ 0 ≤ r.2 c) ∧
    (∃ r, GetPeaksS32N M b C f_min f_max = .ok r ∧ r.1 c ≤ 0 ∧ 0 ≤ r.2 c) := by
  have hl := wholeFrames_le hb
  refine ⟨⟨_, GetPeaksFL32_ok b C f_min f_max hl, ?_, ?_⟩,
    ⟨_, GetPeaksFL64_ok M b C f_min f_max hM hl, ?_, ?_⟩,
    ⟨_, GetPeaksS16N_ok M b C f_min f_max hM hl, ?_, ?_⟩,
    ⟨_, GetPeaksS32N_ok M b C f_min f_max hM hl, ?_, ?_⟩⟩ <;>
    simp only [hc, if_true, FloatVal.zero_eq, FloatVal.num_le_num]
  · exact peakMin_le_zero _
  · exact zero_le_peakMax _
  · have := roundF32_mono (peakMin_le_zero (samplesFL64 b C c))
    rwa [roundF32_zero] at this
  · have := roundF32_mono (zero_le_peakMax (samplesFL64 b C c))
    rwa [roundF32_zero] at this
  · rw [← finite_zero, finite_le_finite]
    have := intCast_div_mono (peakMin_le_zero (samplesS16N b C c))
    simpa using this
  · rw [← finite_zero, finite_le_finite]
    have := intCast_div_mono (zero_le_peakMax (samplesS16N b C c))
    simpa using this
  · rw [← finite_zero, finite_le_finite]
    have := f32RoundQ_intCast_mono (peakMin_le_zero (samplesS32N b C c))
    simpa [f32RoundQ_zero] using this
  · rw [← finite_zero, finite_le_finite]
    have := f32RoundQ_intCast_mono (zero_le_peakMax (samplesS32N b C c))
    simpa [f32RoundQ_zero] using this

/-- C2 on a block whose only sample is positive: the S16N block `[5]` and the
word `5` read by the three other routines. -/
theorem peaks_zero_floor_witness :
    (1 ≤ 64 ∧ block_t.wholeFrames ⟨[5], 1, 0⟩ 1 ∧ 0 < 1 ∧ 0 < toInt16 5) ∧
    (∃ r, GetPeaksS16N 64 ⟨[5], 1, 0⟩ 1 (fun _ => .nan) (fun _ => .nan) = .ok r ∧
      r.1 0 ≤ 0 ∧ 0 ≤ r.2 0) :=
  ⟨⟨by decide, by decide, by decide, by decide⟩,
    (peaks_zero_floor 64 ⟨[5], 1, 0⟩ 1 0 (fun _ => .nan) (fun _ => .nan)
      (by decide) (by decide) (by decide)).2.2.1⟩

/-- C3: channel independence.  Two blocks of the same frame count that agree
on every sample of channel `c` (positions `i * i_channels + c`) get the same
`min[c]` and `max[c]` from every routine, whatever their other channels and
the previous contents of the output arrays; and the two-channel `float` block
`[(1.0, -1.0), (-1.0, 1.0)]` gives `min = -1.0`, `max = 1.0` on both
channels. -/
theorem peaks_channel_independent (M : ℕ) (b₁ b₂ : block_t) (C c : ℕ)
    (f₁ g₁ f₂ g₂ : ℕ → FloatVal) (hM : C ≤ M)
    (hN : b₁.i_nb_samples = b₂.i_nb_samples)
    (h₁ : b₁.wholeFrames C) (h₂ : b₂.wholeFrames C) (hc : c < C)
    (h : ∀ i < b₁.i_nb_samples, b₁.p_buffer[i * C + c]? = b₂.p_buffer[i * C + c]?) :
    (∃ r₁ r₂, GetPeaksFL32 b₁ C f₁ g₁ = .ok r₁ ∧ GetPeaksFL32 b₂ C f₂ g₂ = .ok r₂ ∧
      r₁.1 c = r₂.1 c ∧ r₁.2 c = r₂.2 c) ∧
    (∃ r₁ r₂, GetPeaksFL64 M b₁ C f₁ g₁ = .ok r₁ ∧ GetPeaksFL64 M b₂ C f₂ g₂ = .ok r₂ ∧
      r₁.1 c = r₂.1 c ∧ r₁.2 c = r₂.2 c) ∧
    (∃ r₁ r₂, GetPeaksS16N M b₁ C f₁ g₁ = .ok r₁ ∧ GetPeaksS16N M b₂ C f₂ g₂ = .ok r₂ ∧
      r₁.1 c = r₂.1 c ∧ r₁.2 c = r₂.2 c) ∧
    (∃ r₁ r₂, GetPeaksS32N M b₁ C f₁ g₁ = .ok r₁ ∧ GetPeaksS32N M b₂ C f₂ g₂ = .ok r₂ ∧
      r₁.1 c = r₂.1 c ∧ r₁.2 c = r₂.2 c) ∧
    (∃ r, GetPeaksFL32 ⟨[0x3F800000, 0xBF800000, 0xBF800000, 0x3F800000], 2, 0⟩ 2 f₁ g₁ = .ok r ∧
      r.1 0 = .num (finite (-1)) ∧ r.2 0 = .num (finite 1) ∧
      r.1 1 = .num (finite (-1)) ∧ r.2 1 = .num (finite 1)) := by
  have hl₁ := wholeFrames_le h₁
  have hl₂ := wholeFrames_le h₂
  obtain ⟨e1, e2, e3, e4⟩ := samples_congr b₁ b₂ C c hN h
  refine ⟨⟨_, _, GetPeaksFL32_ok b₁ C f₁ g₁ hl₁, GetPeaksFL32_ok b₂ C f₂ g₂ hl₂, ?_, ?_⟩,
    ⟨_, _, GetPeaksFL64_ok M b₁ C f₁ g₁ hM hl₁, GetPeaksFL64_ok M b₂ C f₂ g₂ hM hl₂, ?_, ?_⟩,
    ⟨_, _, GetPeaksS16N_ok M b₁ C f₁ g₁ hM hl₁, GetPeaksS16N_ok M b₂ C f₂ g₂ hM hl₂, ?_, ?_⟩,
    ⟨_, _, GetPeaksS32N_ok M b₁ C f₁ g₁ hM hl₁, GetPeaksS32N_ok M b₂ C f₂ g₂ hM hl₂, ?_, ?_⟩,
    ⟨_, GetPeaksFL32_ok _ 2 f₁ g₁ (by decide), ?_⟩⟩
  any_goals simp only [hc, if_true, e1, e2, e3, e4]
  have w0 : channelWords [0x3F800000, 0xBF800000, 0xBF800000, 0x3F800000] 2 2 0 =
      [0x3F800000, 0xBF800000] := by decide
  have w1 : channelWords [0x3F800000, 0xBF800000, 0xBF800000, 0x3F800000] 2 2 1 =
      [0xBF800000, 0x3F800000] := by decide
  have s0 : samplesFL32 ⟨[0x3F800000, 0xBF800000, 0xBF800000, 0x3F800000], 2, 0⟩ 2 0 =
      List.map finite [1, -1] := by
    simp only [samplesFL32, w0, List.map_cons, List.map_nil, decodeF32_one, decodeF32_neg_one]
    simp [numbers, FloatVal.toX]
  have s1 : samplesFL32 ⟨[0x3F800000, 0xBF800000, 0xBF800000, 0x3F800000], 2, 0⟩ 2 1 =
      List.map finite [-1, 1] := by
    simp only [samplesFL32, w1, List.map_cons, List.map_nil, decodeF32_one, decodeF32_neg_one]
    simp [numbers, FloatVal.toX]
  simp only [show (0 : ℕ) < 2 by decide, show (1 : ℕ) < 2 by decide, if_true, s0, s1,
    peakMin_map_finite, peakMax_map_finite]
  norm_num [peakMin, peakMax]

/-- C3 on two `float` blocks that agree on channel 0 and differ on channel 1. -/
theorem peaks_channel_independent_witness :
    (2 ≤ 64 ∧ block_t.wholeFrames ⟨[0x3F800000, 0xBF800000, 0xBF800000, 0x3F800000], 2, 0⟩ 2 ∧
      block_t.wholeFrames ⟨[0x3F800000, 0x40000000, 0xBF800000, 0x3F000000], 2, 7⟩ 2 ∧
      (∀ i < 2, [0x3F800000, 0xBF800000, 0xBF800000, 0x3F800000][i * 2 + 0]? =
        [0x3F800000, 0x40000000, 0xBF800000, 0x3F000000][i * 2 + 0]?)) ∧
    (∃ r₁ r₂,
      GetPeaksFL32 ⟨[0x3F800000, 0xBF800000, 0xBF800000, 0x3F800000], 2, 0⟩ 2
        (fun _ => 0) (fun _ => 0) = .ok r₁ ∧
      GetPeaksFL32 ⟨[0x3F800000, 0x40000000, 0xBF800000, 0x3F000000], 2, 7⟩ 2
        (fun _ => .nan) (fun _ => .nan) = .ok r₂ ∧
      r₁.1 0 = r₂.1 0 ∧ r₁.2 0 = r₂.2 0) :=
  ⟨⟨by decide, by decide, by decide, by decide⟩,
    (peaks_channel_independent 64 ⟨[0x3F800000, 0xBF800000, 0xBF800000, 0x3F800000], 2, 0⟩
      ⟨[0x3F800000, 0x40000000, 0xBF800000, 0x3F000000], 2, 7⟩ 2 0
      (fun _ => 0) (fun _ => 0) (fun _ => .nan) (fun _ => .nan)
      (by decide) rfl (by decide) (by decide) (by decide) (by decide)).1⟩

/-- C4 fails as stated: the S32N sample `2147483647` is reported as exactly
`1.0`, neither as `2147483647 / 2^31` nor as a value strictly below `1.0`. -/
theorem s32n_int_max_reports_one :
    ∃ r, GetPeaksS32N 64 ⟨[2147483647], 1, 0⟩ 1 (fun _ => 0) (fun _ => 0) = .ok r ∧
      r.2 0 = .num (finite 1) ∧ r.2 0 ≠ .num (finite (2147483647 / 2 ^ 31)) ∧
      ¬ (r.2 0 < .num (finite 1)) := by
  refine ⟨_, GetPeaksS32N_ok 64 _ 1 _ _ (by decide) (by decide), ?_⟩
  have hp : peakMax (samplesS32N ⟨[2147483647], 1, 0⟩ 1 0) = 2147483647 := by
    rw [(samples_single _ _).2.1]; decide
  simp only [Nat.lt_one_iff, if_true, hp]
  have e : f32RoundQ ((2147483647 : ℤ) : ℚ) / 2 ^ 31 = 1 := by
    norm_num [f32RoundQ_int32_max]
  rw [e]
  refine ⟨rfl, ?_, ?_⟩
  · norm_num [finite]
  · exact fun h => lt_irrefl _ (FloatVal.num_lt_num.1 h)

/-- C4 (as amended): the extremum S32N reports is the accumulated 32-bit
extremum rounded to the nearest `float` (24 significant bits, ties to even)
and then divided by `2^31`; so the single sample `2147483647` gives
`max[0] = 1.0` exactly and the single sample `-2147483648` gives
`min[0] = -1.0` exactly. -/
theorem s32n_extremum_rounded (M : ℕ) (b : block_t) (C c : ℕ) (f_min f_max : ℕ → FloatVal)
    (hM : C ≤ M) (hb : b.wholeFrames C) (hc : c < C) :
    (∃ r, GetPeaksS32N M b C f_min f_max = .ok r ∧
      r.1 c = .num (finite (f32RoundQ ((peakMin (samplesS32N b C c) : ℤ) : ℚ) / 2 ^ 31)) ∧
      r.2 c = .num (finite (f32RoundQ ((peakMax (samplesS32N b C c) : ℤ) : ℚ) / 2 ^ 31))) ∧
    (∃ r, GetPeaksS32N M ⟨[2147483647], 1, 0⟩ 1 f_min f_max = .ok r ∧
      r.1 0 = 0 ∧ r.2 0 = .num (finite 1)) ∧
    (∃ r, GetPeaksS32N M ⟨[2147483648], 1, 0⟩ 1 f_min f_max = .ok r ∧
      toInt32 2147483648 = -2147483648 ∧ r.1 0 = .num (finite (-1)) ∧ r.2 0 = 0) := by
  have h1 : 1 ≤ M := by omega
  refine ⟨⟨_, GetPeaksS32N_ok M b C f_min f_max hM (wholeFrames_le hb), ?_, ?_⟩,
    ⟨_, GetPeaksS32N_ok M _ 1 f_min f_max h1 (by decide), ?_, ?_⟩,
    ⟨_, GetPeaksS32N_ok M _ 1 f_min f_max h1 (by decide), by decide, ?_, ?_⟩⟩
  · simp only [hc, if_true]
  · simp only [hc, if_true]
  · have hp : peakMin (samplesS32N ⟨[2147483647], 1, 0⟩ 1 0) = 0 := by
      rw [(samples_single _ _).2.1]; decide
    simp only [Nat.lt_one_iff, if_true, hp]
    rw [Int.cast_zero, f32RoundQ_zero, zero_div]
    rfl
  · have hp : peakMax (samplesS32N ⟨[2147483647], 1, 0⟩ 1 0) = 2147483647 := by
      rw [(samples_single _ _).2.1]; decide
    simp only [Nat.lt_one_iff, if_true, hp]
    norm_num [f32RoundQ_int32_max]
  · have hp : peakMin (samplesS32N ⟨[2147483648], 1, 0⟩ 1 0) = -2 ^ 31 := by
      rw [(samples_single _ _).2.1]; decide
    simp only [Nat.lt_one_iff, if_true, hp]
    have e : f32RoundQ ((-2 ^ 31 : ℤ) : ℚ) = -2 ^ 31 := by
      have := f32RoundQ_two_pow 31
      norm_num at this
      push_cast
      rw [f32RoundQ_neg, this]
      norm_num
    rw [e]
    norm_num
  · have hp : peakMax (samplesS32N ⟨[2147483648], 1, 0⟩ 1 0) = 0 := by
      rw [(samples_single _ _).2.1]; decide
    simp only [Nat.lt_one_iff, if_true, hp]
    rw [Int.cast_zero, f32RoundQ_zero, zero_div]
    rfl

/-- C4 on the one-sample block `[16777217]`, whose maximum is not a `float`:
S32N reports `16777216 / 2^31`. -/
theorem s32n_extremum_rounded_witness :
    (1 ≤ 64 ∧ block_t.wholeFrames ⟨[16777217], 1, 0⟩ 1 ∧ 0 < 1) ∧
    (∃ r, GetPeaksS32N 64 ⟨[16777217], 1, 0⟩ 1 (fun _ => 0) (fun _ => 0) = .ok r ∧
      r.2 0 = .num (finite (16777216 / 2 ^ 31))) := by
  refine ⟨⟨by decide, by decide, by decide⟩, ?_⟩
  obtain ⟨r, hr, -, h2⟩ := (s32n_extremum_rounded 64 ⟨[16777217], 1, 0⟩ 1 0
    (fun _ => 0) (fun _ => 0) (by decide) (by decide) (by decide)).1
  refine ⟨r, hr, ?_⟩
  have hp : peakMax (samplesS32N ⟨[16777217], 1, 0⟩ 1 0) = 16777217 := by
    rw [(samples_single _ _).2.1]; decide
  rw [h2, hp]
  norm_num [f32RoundQ_two_pow_24_succ]

/-- C5: for every 16-bit value `v` the one-sample S16N block `[v]` gives
`v / 2^15` as `max[0]` when `v > 0` and as `min[0]` when `v < 0`, the other
bound being `0`; so `32767` gives `max[0] = 32767/32768` and `-32768` gives
`min[0] = -1.0` exactly. -/
theorem s16n_single_sample (M : ℕ) (v : ℤ) (f_min f_max : ℕ → FloatVal)
    (hM : 1 ≤ M) (h₁ : -2 ^ 15 ≤ v) (h₂ : v < 2 ^ 15) :
    (∃ r, GetPeaksS16N M ⟨[(v % 2 ^ 16).toNat], 1, 0⟩ 1 f_min f_max = .ok r ∧
      (0 < v → r.2 0 = .num (finite ((v : ℚ) / 2 ^ 15)) ∧ r.1 0 = 0) ∧
      (v < 0 → r.1 0 = .num (finite ((v : ℚ) / 2 ^ 15)) ∧ r.2 0 = 0)) ∧
    (∃ r, GetPeaksS16N M ⟨[32767], 1, 0⟩ 1 f_min f_max = .ok r ∧
      r.2 0 = .num (finite (32767 / 32768))) ∧
    (∃ r, GetPeaksS16N M ⟨[32768], 1, 0⟩ 1 f_min f_max = .ok r ∧
      toInt16 32768 = -32768 ∧ r.1 0 = .num (finite (-1))) := by
  have key : ∀ u : ℤ, -2 ^ 15 ≤ u → u < 2 ^ 15 →
      ∃ r, GetPeaksS16N M ⟨[(u % 2 ^ 16).toNat], 1, 0⟩ 1 f_min f_max = .ok r ∧
        (0 < u → r.2 0 = .num (finite ((u : ℚ) / 2 ^ 15)) ∧ r.1 0 = 0) ∧
        (u < 0 → r.1 0 = .num (finite ((u : ℚ) / 2 ^ 15)) ∧ r.2 0 = 0) := by
    intro u hu₁ hu₂
    refine ⟨_, GetPeaksS16N_ok M _ 1 f_min f_max hM (by simp), ?_, ?_⟩
    · intro hpos
      simp only [Nat.lt_one_iff, if_true, (samples_single _ _).1, toInt16_of_int u hu₁ hu₂]
      have a : peakMax [u] = u := by simp [peakMax, le_of_lt hpos]
      have b : peakMin [u] = 0 := by simp [peakMin, le_of_lt hpos]
      rw [a, b]
      simp [FloatVal.zero_eq, finite_zero]
    · intro hneg
      simp only [Nat.lt_one_iff, if_true, (samples_single _ _).1, toInt16_of_int u hu₁ hu₂]
      have a : peakMax [u] = 0 := by simp [peakMax, le_of_lt hneg]
      have b : peakMin [u] = u := by simp [peakMin, le_of_lt hneg]
      rw [a, b]
      simp [FloatVal.zero_eq, finite_zero]
  refine ⟨key v h₁ h₂, ?_, ?_⟩
  · obtain ⟨r, hr, hp, -⟩ := key 32767 (by norm_num) (by norm_num)
    refine ⟨r, hr, ?_⟩
    have := (hp (by norm_num)).1
    rw [this]
    norm_num
  · obtain ⟨r, hr, -, hn⟩ := key (-32768) (by norm_num) (by norm_num)
    refine ⟨r, hr, by decide, ?_⟩
    have := (hn (by norm_num)).1
    rw [this]
    norm_num

/-- C5 on the sample `-3`. -/
theorem s16n_single_sample_witness :
    (1 ≤ 64 ∧ (-2 ^ 15 : ℤ) ≤ -3 ∧ (-3 : ℤ) < 2 ^ 15 ∧ (-3 : ℤ) < 0) ∧
    (∃ r, GetPeaksS16N 64 ⟨[65533], 1, 0⟩ 1 (fun _ => .nan) (fun _ => .nan) = .ok r ∧
      r.1 0 = .num (finite (-3 / 2 ^ 15)) ∧ r.2 0 = 0) := by
  refine ⟨⟨by decide, by decide, by decide, by decide⟩, ?_⟩
  obtain ⟨r, hr, -, hn⟩ := (s16n_single_sample 64 (-3) (fun _ => .nan) (fun _ => .nan)
    (by decide) (by decide) (by decide)).1
  refine ⟨r, hr, ?_⟩
  have := hn (by decide)
  simpa using this

/-- C6 fails as stated: the one-sample `float` block `[2.0]` is reported with
`max[0] = 2.0`, outside `[-1.0, 1.0]`. -/
theorem fl32_peak_exceeds_unit_range :
    ∃ r, GetPeaksFL32 ⟨[0x40000000], 1, 0⟩ 1 (fun _ => 0) (fun _ => 0) = .ok r ∧
      r.2 0 = .num (finite 2) ∧ ¬ inUnitRange (r.2 0) := by
  refine ⟨_, GetPeaksFL32_ok _ 1 _ _ (by decide), ?_⟩
  have hs : samplesFL32 ⟨[0x40000000], 1, 0⟩ 1 0 = List.map finite [2] := by
    rw [(samples_single _ _).2.2.1, decodeF32_two]
    simp [numbers, FloatVal.toX]
  have hp : peakMax (samplesFL32 ⟨[0x40000000], 1, 0⟩ 1 0) = finite 2 := by
    rw [hs, peakMax_map_finite]
    norm_num [peakMax]
  simp only [Nat.lt_one_iff, if_true, hp, true_and]
  intro h
  have := finite_le_finite.1 (FloatVal.num_le_num.1 h.2)
  norm_num at this

/-- C6 (as amended): S16N and S32N report every `min[c]` and `max[c]` within
`[-1.0, 1.0]`; FL32 and FL64 pass sample values through without clamping, so
they report values within `[-1.0, 1.0]` whenever every non-NaN sample of the
channel lies in that range. -/
theorem peaks_in_unit_range (M : ℕ) (b : block_t) (C c : ℕ) (f_min f_max : ℕ → FloatVal)
    (hM : C ≤ M) (hb : b.wholeFrames C) (hc : c < C) :
    (∃ r, GetPeaksS16N M b C f_min f_max = .ok r ∧
      inUnitRange (r.1 c) ∧ inUnitRange (r.2 c)) ∧
    (∃ r, GetPeaksS32N M b C f_min f_max = .ok r ∧
      inUnitRange (r.1 c) ∧ inUnitRange (r.2 c)) ∧
    ((∀ x ∈ samplesFL32 b C c, finite (-1) ≤ x ∧ x ≤ finite 1) →
      ∃ r, GetPeaksFL32 b C f_min f_max = .ok r ∧
        inUnitRange (r.1 c) ∧ inUnitRange (r.2 c)) ∧
    ((∀ x ∈ samplesFL64 b C c, finite (-1) ≤ x ∧ x ≤ finite 1) →
      ∃ r, GetPeaksFL64 M b C f_min f_max = .ok r ∧
        inUnitRange (r.1 c) ∧ inUnitRange (r.2 c)) := by
  have hl := wholeFrames_le hb
  refine ⟨⟨_, GetPeaksS16N_ok M b C f_min f_max hM hl, ?_, ?_⟩,
    ⟨_, GetPeaksS32N_ok M b C f_min f_max hM hl, ?_, ?_⟩, ?_, ?_⟩
  · simp only [hc, if_true]
    exact s16n_scaled_range _
      (peakMin_mem_range _ _ _ (by norm_num) (by norm_num) (samplesS16N_range b C c))
  · simp only [hc, if_true]
    exact s16n_scaled_range _
      (peakMax_mem_range _ _ _ (by norm_num) (by norm_num) (samplesS16N_range b C c))
  · simp only [hc, if_true]
    exact s32n_scaled_range _
      (peakMin_mem_range _ _ _ (by norm_num) (by norm_num) (samplesS32N_range b C c))
  · simp only [hc, if_true]
    exact s32n_scaled_range _
      (peakMax_mem_range _ _ _ (by norm_num) (by norm_num) (samplesS32N_range b C c))
  · intro h
    refine ⟨_, GetPeaksFL32_ok b C f_min f_max hl, ?_, ?_⟩ <;> simp only [hc, if_true]
    · exact peakMin_mem_range _ _ _ finite_neg_one_le_zero zero_le_finite_one h
    · exact peakMax_mem_range _ _ _ finite_neg_one_le_zero zero_le_finite_one h
  · intro h
    refine ⟨_, GetPeaksFL64_ok M b C f_min f_max hM hl, ?_, ?_⟩ <;> simp only [hc, if_true]
    · have := peakMin_mem_range _ _ _ finite_neg_one_le_zero zero_le_finite_one h
      constructor
      · have a := roundF32_mono this.1
        rw [roundF32_neg_one] at a
        exact a
      · have a := roundF32_mono this.2
        rw [roundF32_one] at a
        exact a
    · have := peakMax_mem_range _ _ _ finite_neg_one_le_zero zero_le_finite_one h
      constructor
      · have a := roundF32_mono this.1
        rw [roundF32_neg_one] at a
        exact a
      · have a := roundF32_mono this.2
        rw [roundF32_one] at a
        exact a

/-- C6 on the S32N block `[2147483647, -2147483648]` (one channel), whose
samples are the two extreme 32-bit values. -/
theorem peaks_in_unit_range_witness :
    (1 ≤ 64 ∧ block_t.wholeFrames ⟨[2147483647, 2147483648], 2, 0⟩ 1 ∧ 0 < 1) ∧
    (∃ r, GetPeaksS32N 64 ⟨[2147483647, 2147483648], 2, 0⟩ 1 (fun _ => 0) (fun _ => 0) = .ok r ∧
      inUnitRange (r.1 0) ∧ inUnitRange (r.2 0)) :=
  ⟨⟨by decide, by decide, by decide⟩,
    (peaks_in_unit_range 64 ⟨[2147483647, 2147483648], 2, 0⟩ 1 0 (fun _ => 0) (fun _ => 0)
      (by decide) (by decide) (by decide)).2.1⟩

/-- C7 fails as stated for FL32.  With `INPUT_CHAN_MAX = 64`, called with 65
channels on a block of one frame of 65 `float` samples `1.0` and with output
arrays of 65 stale entries, `GetPeaksFL32` is not rejected: it returns, has
overwritten the stale `min[0]` with `0.0` and has stored the sample it read
as `max[0]`. -/
theorem fl32_scans_above_channel_bound :
    ∃ r, GetPeaksFL32 ⟨List.replicate 65 0x3F800000, 1, 0⟩ 65
        (fun _ => .nan) (fun _ => .nan) = .ok r ∧
      r.1 0 = 0 ∧ r.2 0 = .num (finite 1) := by
  have hs : ∀ n c, c < n →
      samplesFL32 ⟨List.replicate n 0x3F800000, 1, 0⟩ n c = List.map finite [1] := by
    intro n c hc
    simp [samplesFL32, channelWords, List.range_succ, List.getElem?_replicate, hc,
      decodeF32_one, numbers, FloatVal.toX]
  have hmin : peakMin (List.map finite [1]) = 0 := by
    rw [peakMin_map_finite]
    norm_num [peakMin]
    rfl
  have hmax : peakMax (List.map finite [1]) = finite 1 := by
    rw [peakMax_map_finite]
    norm_num [peakMax]
  refine ⟨_, GetPeaksFL32_ok _ 65 _ _ (by simp), ?_, ?_⟩
  · simp only [show (0 : ℕ) < 65 by decide, if_true, hs 65 0 (by decide), hmin]; rfl
  · simp only [show (0 : ℕ) < 65 by decide, if_true, hs 65 0 (by decide), hmax]

/-- C7 (as amended): `GetPeaksFL64`, `GetPeaksS16N` and `GetPeaksS32N`, called
with `i_channels > INPUT_CHAN_MAX`, stop at their assertion (`assert` being
active) before any scan, whatever the block and the output arrays hold: no
sample is read and no min/max entry is produced. -/
theorem bound_checked_by_assertion (M : ℕ) (b : block_t) (C : ℕ)
    (f_min f_max : ℕ → FloatVal) (h : M < C) :
    GetPeaksFL64 M b C f_min f_max = .error .assertion ∧
    GetPeaksS16N M b C f_min f_max = .error .assertion ∧
    GetPeaksS32N M b C f_min f_max = .error .assertion := by
  refine ⟨?_, ?_, ?_⟩
  · unfold GetPeaksFL64; rw [if_pos (by omega)]
  · unfold GetPeaksS16N; rw [if_pos (by omega)]
  · unfold GetPeaksS32N; rw [if_pos (by omega)]

/-- C7 with `INPUT_CHAN_MAX = 64` and 65 channels, on the block of one frame
of 65 words. -/
theorem bound_checked_by_assertion_witness :
    64 < 65 ∧
    GetPeaksFL64 64 ⟨List.replicate 65 0x3F800000, 1, 0⟩ 65 (fun _ => .nan) (fun _ => .nan) =
      .error .assertion ∧
    GetPeaksS16N 64 ⟨List.replicate 65 0x3F800000, 1, 0⟩ 65 (fun _ => .nan) (fun _ => .nan) =
      .error .assertion ∧
    GetPeaksS32N 64 ⟨List.replicate 65 0x3F800000, 1, 0⟩ 65 (fun _ => .nan) (fun _ => .nan) =
      .error .assertion :=
  ⟨by decide, bound_checked_by_assertion 64 ⟨List.replicate 65 0x3F800000, 1, 0⟩ 65
    (fun _ => .nan) (fun _ => .nan) (by decide)⟩

/-- C8: for a format tag other than the four recognised ones `Open` leaves
`get_peaks` at `NULL`, and then `Process`, on any block, computes nothing:
the filter state with its stored min/max arrays is unchanged and the peaks
callback, if set, receives channel count `0`.  For each of the four
recognised tags `Open` selects a routine, and `Process` passes the stream's
channel count to the callback whenever the routine returns, which it does on
a block of whole frames with at most `INPUT_CHAN_MAX` channels. -/
theorem unsupported_format_gives_no_peaks (codecs : Codecs) (i_format : ℕ)
    (created : filter_sys_t) ( cb_opaque cb_greet cb_peaks : ℕ) (M nb_channels : ℕ)
    (p_block : block_t) :
    (i_format ∉ [codecs.VLC_CODEC_FL32, codecs.VLC_CODEC_FL64, codecs.VLC_CODEC_S16N,
        codecs.VLC_CODEC_S32N] →
      ∃ p_sys cbs, Open codecs i_format (some created) cb_opaque cb_greet cb_peaks =
          some (p_sys, cbs) ∧
        p_sys.get_peaks = none ∧
        p_sys.f_peaks_min = created.f_peaks_min ∧ p_sys.f_peaks_max = created.f_peaks_max ∧
        Process M p_sys nb_channels p_block = .ok (p_sys,
          (if cb_peaks ≠ 0 then
            [.peaks cb_opaque p_block.i_pts 0 created.f_peaks_min created.f_peaks_max]
           else []), p_block)) ∧
    (i_format ∈ [codecs.VLC_CODEC_FL32, codecs.VLC_CODEC_FL64, codecs.VLC_CODEC_S16N,
        codecs.VLC_CODEC_S32N] →
      ∃ p_sys cbs,
        Open codecs i_format (some created) cb_opaque cb_greet cb_peaks = some (p_sys, cbs) ∧
        p_sys.get_peaks ≠ none ∧
        (∀ p_sys' called p_out, Process M p_sys nb_channels p_block = .ok (p_sys', called, p_out) →
          called = (if cb_peaks ≠ 0 then
            [.peaks cb_opaque p_block.i_pts nb_channels p_sys'.f_peaks_min p_sys'.f_peaks_max]
           else []) ∧ p_out = p_block) ∧
        (nb_channels ≤ M → p_block.wholeFrames nb_channels →
          ∃ out, Process M p_sys nb_channels p_block = .ok out)) := by
  constructor
  · intro h
    simp only [List.mem_cons, List.mem_singleton, List.not_mem_nil, or_false, not_or] at h
    obtain ⟨h1, h2, h3, h4⟩ := h
    refine ⟨_, _, rfl, ?_, rfl, rfl, ?_⟩
    · simp [h1, h2, h3, h4]
    · simp [Process, h1, h2, h3, h4]
  · intro h
    have hsel : ∃ R : PeakRoutine,
        (if i_format = codecs.VLC_CODEC_FL32 then some PeakRoutine.FL32
          else if i_format = codecs.VLC_CODEC_FL64 then some PeakRoutine.FL64
          else if i_format = codecs.VLC_CODEC_S16N then some PeakRoutine.S16N
          else if i_format = codecs.VLC_CODEC_S32N then some PeakRoutine.S32N
          else none) = some R := by
      simp only [List.mem_cons, List.mem_singleton, List.not_mem_nil, or_false] at h
      split_ifs with a b c d
      · exact ⟨_, rfl⟩
      · exact ⟨_, rfl⟩
      · exact ⟨_, rfl⟩
      · exact ⟨_, rfl⟩
      · rcases h with h | h | h | h <;> contradiction
    obtain ⟨R, hR⟩ := hsel
    refine ⟨_, _, rfl, ?_, ?_, ?_⟩
    · simp only [hR]; exact Option.some_ne_none R
    · intro p_sys' called p_out hP
      simp only [Process, hR] at hP
      cases hcall : R.call M p_block nb_channels created.f_peaks_min created.f_peaks_max with
      | error e => rw [hcall] at hP; cases hP
      | ok r =>
        obtain ⟨f₁, f₂⟩ := r
        rw [hcall] at hP
        simp only [Except.ok.injEq, Prod.mk.injEq] at hP
        obtain ⟨rfl, rfl, rfl⟩ := hP
        exact ⟨rfl, rfl⟩
    · intro hM hb
      obtain ⟨⟨f₁, f₂⟩, hr⟩ := PeakRoutine.call_ok M R p_block nb_channels
        created.f_peaks_min created.f_peaks_max hM hb
      refine ⟨(⟨f₁, f₂, some R, cb_opaque, cb_greet, cb_peaks⟩,
        (if cb_peaks ≠ 0 then [.peaks cb_opaque p_block.i_pts nb_channels f₁ f₂] else []),
        p_block), ?_⟩
      simp only [Process, hR, hr]

/-- C8 with the tags of a little-endian host: the tag of unsigned 8-bit audio
is not recognised, the tag `f32l` is. -/
theorem unsupported_format_gives_no_peaks_witness :
    ((0x20203875 : ℕ) ∉ [0x6c323366, 0x6c343666, 0x6c363173, 0x6c323373] ∧
      ∃ p_sys cbs, Open ⟨0x6c323366, 0x6c343666, 0x6c363173, 0x6c323373⟩ 0x20203875
          (some ⟨fun _ => 0, fun _ => 0, none, 0, 0, 0⟩) 7 0 9 = some (p_sys, cbs) ∧
        p_sys.get_peaks = none ∧
        Process 64 p_sys 2 ⟨[0x3F800000, 0xBF800000], 1, 5⟩ = .ok (p_sys,
          [.peaks 7 5 0 (fun _ => 0) (fun _ => 0)], ⟨[0x3F800000, 0xBF800000], 1, 5⟩)) ∧
    ((0x6c323366 : ℕ) ∈ [0x6c323366, 0x6c343666, 0x6c363173, 0x6c323373] ∧ 2 ≤ 64 ∧
      block_t.wholeFrames ⟨[0x3F800000, 0xBF800000], 1, 5⟩ 2 ∧
      ∃ p_sys cbs p_sys' p_out,
        Open ⟨0x6c323366, 0x6c343666, 0x6c363173, 0x6c323373⟩ 0x6c323366
          (some ⟨fun _ => 0, fun _ => 0, none, 0, 0, 0⟩) 7 0 9 = some (p_sys, cbs) ∧
        p_sys.get_peaks ≠ none ∧
        Process 64 p_sys 2 ⟨[0x3F800000, 0xBF800000], 1, 5⟩ = .ok (p_sys',
          [.peaks 7 5 2 p_sys'.f_peaks_min p_sys'.f_peaks_max], p_out)) := by
  refine ⟨⟨by decide, ?_⟩, ⟨by decide, by decide, by decide, ?_⟩⟩
  · obtain ⟨p_sys, cbs, h1, h2, -, -, h3⟩ :=
      (unsupported_format_gives_no_peaks ⟨0x6c323366, 0x6c343666, 0x6c363173, 0x6c323373⟩
        0x20203875 ⟨fun _ => 0, fun _ => 0, none, 0, 0, 0⟩ 7 0 9 64 2
        ⟨[0x3F800000, 0xBF800000], 1, 5⟩).1 (by decide)
    exact ⟨p_sys, cbs, h1, h2, by simpa using h3⟩
  · obtain ⟨p_sys, cbs, h1, h2, h3, h4⟩ :=
      (unsupported_format_gives_no_peaks ⟨0x6c323366, 0x6c343666, 0x6c363173, 0x6c323373⟩
        0x6c323366 ⟨fun _ => 0, fun _ => 0, none, 0, 0, 0⟩ 7 0 9 64 2
        ⟨[0x3F800000, 0xBF800000], 1, 5⟩).2 (by decide)
    obtain ⟨⟨p_sys', called, p_out⟩, h5⟩ := h4 (by decide) (by decide)
    obtain ⟨h6, -⟩ := h3 p_sys' called p_out h5
    refine ⟨p_sys, cbs, p_sys', p_out, h1, h2, ?_⟩
    rw [h5, h6]
    simp

/-- C9: empty-buffer identity.  With `i_nb_samples = 0` and
`i_channels <= INPUT_CHAN_MAX` every routine succeeds and returns
`min[c] = max[c] = 0.0` for each channel `c < i_channels`. -/
theorem peaks_of_empty_block (M : ℕ) (b : block_t) (C c : ℕ) (f_min f_max : ℕ → FloatVal)
    (hM : C ≤ M) (hN : b.i_nb_samples = 0) (hc : c < C) :
    (∃ r, GetPeaksFL32 b C f_min f_max = .ok r ∧ r.1 c = 0 ∧ r.2 c = 0) ∧
    (∃ r, GetPeaksFL64 M b C f_min f_max = .ok r ∧ r.1 c = 0 ∧ r.2 c = 0) ∧
    (∃ r, GetPeaksS16N M b C f_min f_max = .ok r ∧ r.1 c = 0 ∧ r.2 c = 0) ∧
    (∃ r, GetPeaksS32N M b C f_min f_max = .ok r ∧ r.1 c = 0 ∧ r.2 c = 0) := by
  have hl : b.i_nb_samples * C ≤ b.p_buffer.length := by rw [hN]; simp
  obtain ⟨e1, e2, e3, e4⟩ := samples_of_empty b C c hN
  refine ⟨⟨_, GetPeaksFL32_ok b C f_min f_max hl, ?_, ?_⟩,
    ⟨_, GetPeaksFL64_ok M b C f_min f_max hM hl, ?_, ?_⟩,
    ⟨_, GetPeaksS16N_ok M b C f_min f_max hM hl, ?_, ?_⟩,
    ⟨_, GetPeaksS32N_ok M b C f_min f_max hM hl, ?_, ?_⟩⟩ <;>
    simp only [hc, if_true, FloatVal.zero_eq, e1, e2, e3, e4, peakMin, peakMax, List.foldl_nil,
      roundF32_zero, Int.cast_zero, zero_div, f32RoundQ_zero, finite_zero]

/-- C9 on the empty block with two channels and stale output arrays. -/
theorem peaks_of_empty_block_witness :
    (2 ≤ 64 ∧ (⟨[], 0, 0⟩ : block_t).i_nb_samples = 0 ∧ 1 < 2) ∧
    (∃ r, GetPeaksFL64 64 ⟨[], 0, 0⟩ 2 (fun _ => .nan) (fun _ => .nan) = .ok r ∧
      r.1 1 = 0 ∧ r.2 1 = 0) :=
  ⟨⟨by decide, rfl, by decide⟩,
    (peaks_of_empty_block 64 ⟨[], 0, 0⟩ 2 1 (fun _ => .nan) (fun _ => .nan)
      (by decide) rfl (by decide)).2.1⟩

/-- C10: concatenation law.  For blocks `A`, `B` of whole frames and
`i_channels <= INPUT_CHAN_MAX`, every routine gives on `A ++ B`, for each
channel, the smaller of the two minima and the larger of the two maxima; so
appending frames never raises `min[c]` nor lowers `max[c]`. -/
theorem peaks_of_append (M : ℕ) (A B : block_t) (C c : ℕ) (f_min f_max : ℕ → FloatVal)
    (hM : C ≤ M) (hA : A.wholeFrames C) (hB : B.wholeFrames C) (hc : c < C) :
    ConcatLaw GetPeaksFL32 A B C c f_min f_max ∧
    ConcatLaw (GetPeaksFL64 M) A B C c f_min f_max ∧
    ConcatLaw (GetPeaksS16N M) A B C c f_min f_max ∧
    ConcatLaw (GetPeaksS32N M) A B C c f_min f_max ∧
    (∀ R ∈ [GetPeaksFL32, GetPeaksFL64 M, GetPeaksS16N M, GetPeaksS32N M],
      ∃ rA rAB, R A C f_min f_max = .ok rA ∧ R (A.append B) C f_min f_max = .ok rAB ∧
        rAB.1 c ≤ rA.1 c ∧ rA.2 c ≤ rAB.2 c) := by
  have hlA := wholeFrames_le hA
  have hlB := wholeFrames_le hB
  have hlAB := wholeFrames_le (wholeFrames_append hA hB)
  obtain ⟨e1, e2, e3, e4⟩ := samples_append A B C c hc hA
  have m16 : Monotone (fun n : ℤ => finite ((n : ℚ) / 2 ^ 15)) :=
    finite_mono.comp intCast_div_mono
  have m32 : Monotone (fun n : ℤ => finite (f32RoundQ (n : ℚ) / 2 ^ 31)) :=
    finite_mono.comp f32RoundQ_intCast_mono
  have c1 : ConcatLaw GetPeaksFL32 A B C c f_min f_max := by
    refine ⟨_, _, _, peakMin (samplesFL32 A C c),
      peakMin (samplesFL32 B C c),
      peakMax (samplesFL32 A C c),
      peakMax (samplesFL32 B C c),
      GetPeaksFL32_ok A C _ _ hlA, GetPeaksFL32_ok B C _ _ hlB,
      GetPeaksFL32_ok _ C _ _ hlAB, ?_, ?_, ?_, ?_, ?_, ?_⟩ <;>
      simp only [hc, if_true, e1, peakMin_append, peakMax_append]
  have c2 : ConcatLaw (GetPeaksFL64 M) A B C c f_min f_max := by
    refine ⟨_, _, _, roundF32 (peakMin (samplesFL64 A C c)),
      roundF32 (peakMin (samplesFL64 B C c)),
      roundF32 (peakMax (samplesFL64 A C c)),
      roundF32 (peakMax (samplesFL64 B C c)),
      GetPeaksFL64_ok M A C _ _ hM hlA,
      GetPeaksFL64_ok M B C _ _ hM hlB, GetPeaksFL64_ok M _ C _ _ hM hlAB,
      ?_, ?_, ?_, ?_, ?_, ?_⟩ <;>
      simp only [hc, if_true, e2, peakMin_append, peakMax_append, roundF32_mono.map_min,
        roundF32_mono.map_max]
  have c3 : ConcatLaw (GetPeaksS16N M) A B C c f_min f_max := by
    refine ⟨_, _, _, finite (((peakMin (samplesS16N A C c) : ℤ) : ℚ) / 2 ^ 15),
      finite (((peakMin (samplesS16N B C c) : ℤ) : ℚ) / 2 ^ 15),
      finite (((peakMax (samplesS16N A C c) : ℤ) : ℚ) / 2 ^ 15),
      finite (((peakMax (samplesS16N B C c) : ℤ) : ℚ) / 2 ^ 15),
      GetPeaksS16N_ok M A C _ _ hM hlA,
      GetPeaksS16N_ok M B C _ _ hM hlB, GetPeaksS16N_ok M _ C _ _ hM hlAB,
      ?_, ?_, ?_, ?_, ?_, ?_⟩ <;>
      simp only [hc, if_true, e3, peakMin_append, peakMax_append]
    · exact congrArg FloatVal.num (m16.map_min (a := peakMin (samplesS16N A C c)))
    · exact congrArg FloatVal.num (m16.map_max (a := peakMax (samplesS16N A C c)))
  have c4 : ConcatLaw (GetPeaksS32N M) A B C c f_min f_max := by
    refine ⟨_, _, _, finite (f32RoundQ ((peakMin (samplesS32N A C c) : ℤ) : ℚ) / 2 ^ 31),
      finite (f32RoundQ ((peakMin (samplesS32N B C c) : ℤ) : ℚ) / 2 ^ 31),
      finite (f32RoundQ ((peakMax (samplesS32N A C c) : ℤ) : ℚ) / 2 ^ 31),
      finite (f32RoundQ ((peakMax (samplesS32N B C c) : ℤ) : ℚ) / 2 ^ 31),
      GetPeaksS32N_ok M A C _ _ hM hlA,
      GetPeaksS32N_ok M B C _ _ hM hlB, GetPeaksS32N_ok M _ C _ _ hM hlAB,
      ?_, ?_, ?_, ?_, ?_, ?_⟩ <;>
      simp only [hc, if_true, e4, peakMin_append, peakMax_append]
    · exact congrArg FloatVal.num (m32.map_min (a := peakMin (samplesS32N A C c)))
    · exact congrArg FloatVal.num (m32.map_max (a := peakMax (samplesS32N A C c)))
  refine ⟨c1, c2, c3, c4, ?_⟩
  have key : ∀ R, ConcatLaw R A B C c f_min f_max →
      ∃ rA rAB, R A C f_min f_max = .ok rA ∧ R (A.append B) C f_min f_max = .ok rAB ∧
        rAB.1 c ≤ rA.1 c ∧ rA.2 c ≤ rAB.2 c := by
    rintro R ⟨rA, rB, rAB, lo₁, lo₂, hi₁, hi₂, hA', -, hAB', a1, -, a3, a4, -, a6⟩
    refine ⟨rA, rAB, hA', hAB', ?_, ?_⟩
    · rw [a1, a3]; exact FloatVal.num_le_num.2 (min_le_left _ _)
    · rw [a4, a6]; exact FloatVal.num_le_num.2 (le_max_left _ _)
  intro R hR
  simp only [List.mem_cons, List.mem_singleton, List.not_mem_nil, or_false] at hR
  rcases hR with rfl | rfl | rfl | rfl
  · exact key _ c1
  · exact key _ c2
  · exact key _ c3
  · exact key _ c4

/-- C10 on the S16N blocks `[5, -3]` and `[-7, 2]` (one channel): the joint
minimum is that of the second block, the joint maximum that of the first. -/
theorem peaks_of_append_witness :
    (1 ≤ 64 ∧ block_t.wholeFrames ⟨[5, 65533], 2, 0⟩ 1 ∧
      block_t.wholeFrames ⟨[65529, 2], 2, 0⟩ 1 ∧ 0 < 1) ∧
    ConcatLaw (GetPeaksS16N 64) ⟨[5, 65533], 2, 0⟩ ⟨[65529, 2], 2, 0⟩ 1 0
      (fun _ => 0) (fun _ => 0) :=
  ⟨⟨by decide, by decide, by decide, by decide⟩,
    (peaks_of_append 64 ⟨[5, 65533], 2, 0⟩ ⟨[65529, 2], 2, 0⟩ 1 0 (fun _ => 0) (fun _ => 0)
      (by decide) (by decide) (by decide) (by decide)).2.2.1⟩

end NoaHello

namespace NoaVSummary

/-! ## Facts about the picture summary -/

theorem MIN_eq_min (X Y : ℤ) : MIN X Y = min X Y := by
  unfold MIN
  split_ifs with h
  · exact (min_eq_left (le_of_lt h)).symm
  · exact (min_eq_right (not_lt.1 h)).symm

theorem filled_length {α : Type} [Zero α] (extent n : ℕ) (f : ℕ → α) :
    (filled extent n f).length = extent := by
  simp [filled]

theorem filled_zero {α : Type} [Zero α] (extent : ℕ) (f : ℕ → α) :
    filled extent 0 f = List.replicate extent 0 := by
  apply List.ext_getElem?
  intro i
  by_cases h : i < extent
  · simp [filled, List.getElem?_replicate, h, List.getElem?_range]
  · simp [filled, List.getElem?_replicate, h, List.getElem?_eq_none]

theorem getElem?_filled {α : Type} [Zero α] (extent n : ℕ) (f : ℕ → α) (i : ℕ)
    (h : i < extent) : (filled extent n f)[i]? = some (if i < n then f i else 0) := by
  simp [filled, List.getElem?_range, h]

theorem store_filled {α : Type} [Zero α] (extent n : ℕ) (f : ℕ → α) (h : n < extent) :
    store (filled extent n f) n (f n) = .ok (filled extent (n + 1) f) := by
  unfold store
  rw [if_pos (by rw [filled_length]; exact h)]
  congr 1
  apply List.ext_getElem?
  intro i
  by_cases hi : i < extent
  · rw [List.getElem?_set, getElem?_filled _ _ _ _ hi, getElem?_filled _ _ _ _ hi]
    by_cases e : n = i
    · subst e
      simp [filled_length, h]
    · have : i < n + 1 ↔ i < n := by omega
      simp [e, this]
  · have a : (filled extent (n + 1) f)[i]? = none :=
      List.getElem?_eq_none (by rw [filled_length]; omega)
    have b : ((filled extent n f).set n (f n))[i]? = none :=
      List.getElem?_eq_none (by rw [List.length_set, filled_length]; omega)
    rw [a, b]

/-- The loop of `Process` stores the first `n` planes and faults nowhere. -/
theorem summary_loop (M : ℕ) (p : ℕ → plane_t) (n : ℕ) (h : n ≤ M) :
    NoaHello.forLoop n
        (fun i (a : Arrays) =>
          match load M p i with
          | .error e => .error e
          | .ok plane =>
            match store a.pixels i plane.p_pixels, store a.lines i plane.i_visible_lines,
                store a.widths i plane.i_visible_pitch, store a.pitches i plane.i_pitch with
            | .ok pixels, .ok lines, .ok widths, .ok pitches =>
              .ok { pixels := pixels, lines := lines, widths := widths, pitches := pitches }
            | _, _, _, _ => .error .outOfBounds)
        { pixels := List.replicate M 0
          lines := List.replicate M 0
          widths := List.replicate M 0
          pitches := List.replicate M 0 } =
      .ok { pixels := filled M n (fun i => (p i).p_pixels)
            lines := filled M n (fun i => (p i).i_visible_lines)
            widths := filled M n (fun i => (p i).i_visible_pitch)
            pitches := filled M n (fun i => (p i).i_pitch) } := by
  induction n with
  | zero => simp [NoaHello.forLoop, filled_zero]
  | succ n ih =>
    have hn : n < M := h
    rw [NoaHello.forLoop, ih (le_of_lt hn)]
    simp only [load, if_pos hn]
    rw [store_filled M n (fun i => (p i).p_pixels) hn,
      store_filled M n (fun i => (p i).i_visible_lines) hn,
      store_filled M n (fun i => (p i).i_visible_pitch) hn,
      store_filled M n (fun i => (p i).i_pitch) hn]

theorem planes_toNat_le (x : ℤ) (M : ℕ) : (MIN x M).toNat ≤ M := by
  rw [MIN_eq_min]
  have : min x (M : ℤ) ≤ M := min_le_right _ _
  omega

end NoaVSummary

namespace NoaVSummary

/-! ## The claim on the picture summary -/

/-- C11: when `Process` gets a picture, has a picture callback and the chain
returns a scaled picture, the callback is called with
`planes = min(i_planes, PICTURE_PLANE_MAX)` and four arrays of
`PICTURE_PLANE_MAX` entries; entry `i < planes` of `pixels`, `lines`,
`widths`, `pitches` is plane `i`'s `p_pixels`, `i_visible_lines`,
`i_visible_pitch`, `i_pitch`, and every entry at an index `>= planes` is
zero.  On every input `Process` returns without the fault `outOfBounds`: no
array is indexed at or beyond `PICTURE_PLANE_MAX`. -/
theorem summary_reports_planes (M : ℕ) (chain : picture_t → Option picture_t)
    (p_sys : filter_sys_t) (inpic scaled : picture_t)
    (hcb : p_sys.cb_picture ≠ 0) (hchain : chain inpic = some scaled) :
    (∃ pixels lines widths pitches,
      Process M chain p_sys (some inpic) = .ok
        ([.cb_picture ( filter_sys_t.cb_opaque p_sys) scaled.date (min scaled.i_planes M)
            pixels lines widths pitches,
          .picture_Release scaled, .picture_Hold (some inpic)], some inpic) ∧
      pixels.length = M ∧ lines.length = M ∧ widths.length = M ∧ pitches.length = M ∧
      ∀ i < M,
        ((i : ℤ) < min scaled.i_planes M →
          pixels[i]? = some (scaled.p i).p_pixels ∧
          lines[i]? = some (scaled.p i).i_visible_lines ∧
          widths[i]? = some (scaled.p i).i_visible_pitch ∧
          pitches[i]? = some (scaled.p i).i_pitch) ∧
        (min scaled.i_planes M ≤ (i : ℤ) →
          pixels[i]? = some 0 ∧ lines[i]? = some 0 ∧
          widths[i]? = some 0 ∧ pitches[i]? = some 0)) ∧
    (∀ (chain₀ : picture_t → Option picture_t) (p_sys₀ : filter_sys_t)
        (p_inpic : Option picture_t),
      ∃ calls, Process M chain₀ p_sys₀ p_inpic = .ok (calls, p_inpic)) := by
  constructor
  · refine ⟨filled M (MIN scaled.i_planes M).toNat (fun i => (scaled.p i).p_pixels),
      filled M (MIN scaled.i_planes M).toNat (fun i => (scaled.p i).i_visible_lines),
      filled M (MIN scaled.i_planes M).toNat (fun i => (scaled.p i).i_visible_pitch),
      filled M (MIN scaled.i_planes M).toNat (fun i => (scaled.p i).i_pitch),
      ?_, filled_length _ _ _, filled_length _ _ _, filled_length _ _ _, filled_length _ _ _, ?_⟩
    · simp only [Process, if_neg hcb, hchain]
      rw [summary_loop M scaled.p _ (planes_toNat_le _ _)]
      simp only [MIN_eq_min, List.cons_append, List.nil_append]
    · intro i hi
      rw [getElem?_filled _ _ _ _ hi, getElem?_filled _ _ _ _ hi, getElem?_filled _ _ _ _ hi,
        getElem?_filled _ _ _ _ hi, MIN_eq_min]
      constructor
      · intro hlt
        have : i < (min scaled.i_planes (M : ℤ)).toNat := by omega
        simp [this]
      · intro hge
        have : ¬ i < (min scaled.i_planes (M : ℤ)).toNat := by omega
        simp [this]
  · intro chain₀ p_sys₀ p_inpic
    cases p_inpic with
    | none => exact ⟨_, rfl⟩
    | some pic =>
      by_cases h0 : p_sys₀.cb_picture = 0
      · exact ⟨[.picture_Hold (some pic)], by simp only [Process, if_pos h0, List.nil_append]⟩
      · cases hc : chain₀ pic with
        | none =>
          exact ⟨[.picture_Hold (some pic)], by simp only [Process, if_neg h0, hc, List.nil_append]⟩
        | some sc =>
          refine ⟨[.cb_picture ( filter_sys_t.cb_opaque p_sys₀) sc.date (MIN sc.i_planes M)
              (filled M (MIN sc.i_planes M).toNat (fun i => (sc.p i).p_pixels))
              (filled M (MIN sc.i_planes M).toNat (fun i => (sc.p i).i_visible_lines))
              (filled M (MIN sc.i_planes M).toNat (fun i => (sc.p i).i_visible_pitch))
              (filled M (MIN sc.i_planes M).toNat (fun i => (sc.p i).i_pitch)),
            .picture_Release sc, .picture_Hold (some pic)], ?_⟩
          simp only [Process, if_neg h0, hc]
          rw [summary_loop M sc.p _ (planes_toNat_le _ _)]
          simp only [List.cons_append, List.nil_append]

/-- C11 with `PICTURE_PLANE_MAX = 5` on a scaled picture that declares seven
planes: five planes are reported, each with its own fields. -/
theorem summary_reports_planes_witness :
    ((⟨7, 9⟩ : filter_sys_t).cb_picture ≠ 0 ∧
      (fun _ : picture_t => some (⟨fun i => ⟨100 + i, 1, 2, 3⟩, 7, 40⟩ : picture_t))
        ⟨fun _ => ⟨0, 0, 0, 0⟩, 3, 40⟩ = some ⟨fun i => ⟨100 + i, 1, 2, 3⟩, 7, 40⟩) ∧
    (∃ pixels lines widths pitches,
      Process 5 (fun _ => some ⟨fun i => ⟨100 + i, 1, 2, 3⟩, 7, 40⟩) ⟨7, 9⟩
          (some ⟨fun _ => ⟨0, 0, 0, 0⟩, 3, 40⟩) = .ok
        ([.cb_picture 7 40 5 pixels lines widths pitches,
          .picture_Release ⟨fun i => ⟨100 + i, 1, 2, 3⟩, 7, 40⟩,
          .picture_Hold (some ⟨fun _ => ⟨0, 0, 0, 0⟩, 3, 40⟩)],
          some ⟨fun _ => ⟨0, 0, 0, 0⟩, 3, 40⟩) ∧
      pixels[4]? = some 104 ∧ lines[4]? = some 1 ∧ widths[4]? = some 2 ∧
      pitches[4]? = some 3) := by
  refine ⟨⟨by decide, rfl⟩, ?_⟩
  obtain ⟨pixels, lines, widths, pitches, h, -, -, -, -, hall⟩ :=
    (summary_reports_planes 5 (fun _ => some ⟨fun i => ⟨100 + i, 1, 2, 3⟩, 7, 40⟩) ⟨7, 9⟩
      ⟨fun _ => ⟨0, 0, 0, 0⟩, 3, 40⟩ ⟨fun i => ⟨100 + i, 1, 2, 3⟩, 7, 40⟩ (by decide) rfl).1
  have h4 := (hall 4 (by decide)).1 (by decide)
  exact ⟨pixels, lines, widths, pitches, h, h4⟩

end NoaVSummary

namespace NoaInvert

/-! ## The claim on the colour inversion -/

/-- C12: `Filter` returns `NULL` for a `NULL` picture whatever the active
flag; with the flag false it returns the very picture it was given and hands
nothing to the filter chain; with the flag true it hands the picture to the
chain and returns the chain's output.  So the chain is invoked exactly when
the picture is not `NULL` and the flag is true. -/
theorem invert_filter_result {picture_t : Type} (chain : picture_t → Option picture_t)
    (p_sys : filter_sys_t) :
    Filter chain p_sys none = (none, []) ∧
    (∀ pic, Filter chain { p_sys with b_active := false } (some pic) = (some pic, [])) ∧
    (∀ pic, Filter chain { p_sys with b_active := true } (some pic) = (chain pic, [pic])) ∧
    (∀ p_pic, (Filter chain p_sys p_pic).2 ≠ [] ↔ (p_pic ≠ none ∧ p_sys.b_active = true)) := by
  refine ⟨rfl, fun _ => rfl, fun _ => rfl, ?_⟩
  intro p_pic
  cases p_pic with
  | none => simp [Filter]
  | some pic => cases hb : p_sys.b_active <;> simp [Filter, hb]

end NoaInvert
